import Mathlib

/-!
Shallow embedding of the graphite-cli stack/branch core
(`src/graphite_cli/models/branch.py`, `src/graphite_cli/models/stack.py`,
`src/graphite_cli/utils/branch_name.py`) together with proofs about the
spec's claims.

Modelling conventions:
* `datetime` values are abstracted as natural numbers; every mutating
  operation receives the value that `datetime.now()` returns during that
  call as an explicit argument `t`.
* Python's insertion-ordered `dict[str, Branch]` becomes an association
  list `List (String × Branch)`; a well-formed dict has `Nodupkeys`.
* Python's `set[str]` for `children` becomes a duplicate-free `List String`
  (insertion order retained; `add` appends when absent, `discard` filters).
* A raised `ValidationException` becomes an `Except` error carrying one
  constructor per raise site, with the f-string interpolants as fields.
-/

namespace Graphite

/-- Embedding of `ValidationException` raise sites in `stack.py`: one
constructor per `raise` statement, carrying the interpolated data. -/
inductive StackErr where
  | duplicateBranch (name : String)
  | unknownParent (parent : String)
  | unknownBranch (name : String)
  | branchHasChildren (name : String) (childList : String)
  | cycleDetected (name : String)
  deriving Repr, DecidableEq

/-- Embedding of the `Branch` dataclass (`branch.py`).  `pr_number` is kept
as `Option Nat`; timestamps are abstract `Nat` clock values. -/
structure Branch where
  name : String
  parent : Option String := none
  pr_number : Option Nat := none
  created_at : Nat := 0
  updated_at : Nat := 0
  commit_hash : String := ""
  description : String := ""
  children : List String := []
  deriving Repr, DecidableEq

namespace Branch

/-- `Branch.is_submitted`. -/
def is_submitted (b : Branch) : Bool := b.pr_number.isSome

/-- `Branch.is_trunk`. -/
def is_trunk (b : Branch) : Bool := b.parent.isNone

/-- `Branch.add_child`: `self.children.add(child_name)` on a Python set is
a no-op when the member is present, otherwise inserts; `updated_at` is
bumped to the current clock `t`. -/
def add_child (b : Branch) (child_name : String) (t : Nat) : Branch :=
  { b with
    children := if child_name ∈ b.children then b.children else b.children ++ [child_name]
    updated_at := t }

/-- `Branch.remove_child`: `self.children.discard(child_name)` plus the
`updated_at` bump. -/
def remove_child (b : Branch) (child_name : String) (t : Nat) : Branch :=
  { b with
    children := b.children.filter (· ≠ child_name)
    updated_at := t }

/-- `Branch.update_metadata`: Python's `if commit_hash:` / `if description:`
guards test string truthiness, i.e. non-emptiness; `updated_at` is always
set to the current clock. -/
def update_metadata (b : Branch) (commit_hash : String := "") (description : String := "")
    (t : Nat := 0) : Branch :=
  let b := if commit_hash ≠ "" then { b with commit_hash := commit_hash } else b
  let b := if description ≠ "" then { b with description := description } else b
  { b with updated_at := t }

end Branch

/-- Embedding of the `Stack` dataclass (`stack.py`).  `branches` is the
insertion-ordered mapping. -/
structure Stack where
  branches : List (String × Branch) := []
  trunk : String := "main"
  created_at : Nat := 0
  updated_at : Nat := 0
  deriving Repr, DecidableEq

namespace Stack

/-- Keys of the `branches` dict, in insertion order. -/
def keys (s : Stack) : List String := s.branches.map Prod.fst

/-- `self.branches.get(name)` / `self.branches[name]` lookup. -/
def lookup (s : Stack) (name : String) : Option Branch :=
  (s.branches.find? (fun p => p.1 = name)).map Prod.snd

/-- `name in self.branches` (dict key test): the lookup succeeds. -/
def hasKey (s : Stack) (name : String) : Bool := (s.lookup name).isSome

/-- `Stack.get_branch`. -/
def get_branch (s : Stack) (name : String) : Option Branch := s.lookup name

/-- Replace the value stored under an existing key, leaving order intact
(Python's `self.branches[k]` assignment to a present key). -/
def updateAt (s : Stack) (key : String) (f : Branch → Branch) : Stack :=
  { s with branches := s.branches.map (fun p => if p.1 = key then (p.1, f p.2) else p) }

/-- Python truthiness of the `parent : str | None` argument: `if parent:`
is false for both `None` and the empty string. -/
def parentTruthy : Option String → Bool
  | none => false
  | some p => p ≠ ""

/-- `Stack.add_branch` (kwargs left at their defaults, as in the claims,
which quantify only over `name` and `parent`).  `t` is the clock value
returned by `datetime.now()` during the call.  A raised exception carries
the state of `self` at the raise point — both raises in the source occur
before any field is assigned, so that state is the entry state. -/
def add_branch (s : Stack) (name : String) (parent : Option String := none)
    (t : Nat := 0) : Except (StackErr × Stack) (Stack × Branch) :=
  if s.hasKey name then
    .error (.duplicateBranch name, s)
  else if parentTruthy parent ∧ ¬ s.hasKey (parent.getD "") then
    .error (.unknownParent (parent.getD ""), s)
  else
    let branch : Branch := { name := name, parent := parent, created_at := t, updated_at := t }
    let s1 : Stack := { s with branches := s.branches ++ [(name, branch)], updated_at := t }
    let s2 : Stack :=
      if parentTruthy parent ∧ s1.hasKey (parent.getD "") then
        s1.updateAt (parent.getD "") (fun pb => pb.add_child name t)
      else s1
    .ok (s2, branch)

/-- `", ".join(sorted(branch.children))`. -/
def joinSortedChildren (children : List String) : String :=
  String.intercalate ", " (children.mergeSort (fun a b => a ≤ b))

/-- `Stack.remove_branch`.  As with `add_branch`, a raised exception
carries the state of `self` at the raise point; both raises in the source
occur before any mutation. -/
def remove_branch (s : Stack) (name : String) (t : Nat := 0) :
    Except (StackErr × Stack) Stack :=
  match s.lookup name with
  | none => .error (.unknownBranch name, s)
  | some branch =>
    if branch.children ≠ [] then
      .error (.branchHasChildren name (joinSortedChildren branch.children), s)
    else
      let s1 : Stack :=
        if parentTruthy branch.parent ∧ s.hasKey (branch.parent.getD "") then
          s.updateAt (branch.parent.getD "") (fun pb => pb.remove_child name t)
        else s
      .ok { s1 with branches := s1.branches.filter (fun p => p.1 ≠ name), updated_at := t }

end Stack

namespace Branch

/-- Loop body of `Branch.get_ancestors`: starting from `cur = self.parent`,
follow `parent` links while the current name is truthy and present.  The
Python `while` loop is bounded by the number of branches on any stack whose
parent links are acyclic; `fuel` makes that bound explicit (the wrapper
passes `|branches|`, which suffices on every acyclic stack — on a stack
whose parent links cycle, the Python original does not terminate). -/
def getAncestorsAux (s : Stack) : Nat → Option String → List Branch
  | 0, _ => []
  | _, none => []
  | fuel + 1, some cur =>
    if cur = "" then []
    else
      match s.lookup cur with
      | none => []
      | some pb => pb :: getAncestorsAux s fuel pb.parent

/-- `Branch.get_ancestors`: ancestor branches, nearest parent first. -/
def get_ancestors (b : Branch) (s : Stack) : List Branch :=
  getAncestorsAux s s.branches.length b.parent

/-- `Branch.get_children`: resolve present child names, then
`sorted(children, key=lambda b: b.created_at)` (a stable sort). -/
def get_children (b : Branch) (s : Stack) : List Branch :=
  ((b.children.filterMap (fun n => s.lookup n)).mergeSort
    (fun x y => x.created_at ≤ y.created_at))

/-- Recursion of `Branch.get_descendants` (`collect_descendants`): for each
child in `get_children` order, emit the child then its descendants.  The
recursion depth is bounded by `|branches|` on any stack whose forest is
well-formed; `fuel` makes the bound explicit. -/
def getDescendantsAux (s : Stack) : Nat → Branch → List Branch
  | 0, _ => []
  | fuel + 1, b => (b.get_children s).flatMap (fun c => c :: getDescendantsAux s fuel c)

/-- `Branch.get_descendants`: depth-first pre-order over `get_children`. -/
def get_descendants (b : Branch) (s : Stack) : List Branch :=
  getDescendantsAux s s.branches.length b

/-- `Branch.get_depth`. -/
def get_depth (b : Branch) (s : Stack) : Nat := (b.get_ancestors s).length

end Branch

namespace Stack

/-- `Stack.get_stack_for_branch`. -/
def get_stack_for_branch (s : Stack) (name : String) : Except StackErr (List Branch) :=
  match s.lookup name with
  | none => .error (.unknownBranch name)
  | some branch =>
    let ancestors := (branch.get_ancestors s).reverse
    let stack_branches := ancestors ++ [branch]
    let descendants := branch.get_descendants s
    .ok (stack_branches ++ descendants)

/-- `Stack.get_upstack_branches`. -/
def get_upstack_branches (s : Stack) (name : String) : Except StackErr (List Branch) :=
  match s.lookup name with
  | none => .error (.unknownBranch name)
  | some branch => .ok (branch.get_descendants s)

/-- `Stack.get_downstack_branches`. -/
def get_downstack_branches (s : Stack) (name : String) : Except StackErr (List Branch) :=
  match s.lookup name with
  | none => .error (.unknownBranch name)
  | some branch => .ok (branch.get_ancestors s)

/-- `Stack.get_trunk_branches`. -/
def get_trunk_branches (s : Stack) : List Branch :=
  (s.branches.map Prod.snd).filter (fun b => b.is_trunk)

/-- `Stack.get_leaf_branches`. -/
def get_leaf_branches (s : Stack) : List Branch :=
  (s.branches.map Prod.snd).filter (fun b => b.children.isEmpty)

/-- The `for child_name in branch.children` loop inside `has_cycle`:
run `step` (the recursive `has_cycle` call at one less fuel) on each child
in order, short-circuiting on the first that reports a cycle and threading
the updated `visited` set to the next child otherwise. -/
def cycleLoop (step : List String → String → Bool × List String) :
    List String → List String → Bool × List String
  | [], visited => (false, visited)
  | c :: cs, visited =>
    match step visited c with
    | (true, v) => (true, v)
    | (false, v) => cycleLoop step cs v

/-- The nested `has_cycle` of `Stack.validate_no_cycles`, made pure: the
`visited` set threads through and is returned; the `rec_stack` set is
pushed on entry and implicitly popped on return (it is not threaded back).
The first component is `has_cycle`'s boolean result.  `fuel` bounds the
recursion depth: each nested call is made on a name not yet in `visited`,
and only names present in `branches` recurse further, so any fuel larger
than the number of present names outside `visited` is never exhausted. -/
def hasCycleAux (s : Stack) : Nat → List String → List String → String →
    Bool × List String
  | fuel, visited, recStack, branch_name =>
    if branch_name ∈ recStack then (true, visited)
    else if branch_name ∈ visited then (false, visited)
    else
      match fuel with
      | 0 => (false, visited)
      | fuel' + 1 =>
        match s.lookup branch_name with
        | some branch =>
          cycleLoop (fun vis c => hasCycleAux s fuel' vis (branch_name :: recStack) c)
            branch.children (branch_name :: visited)
        | none => (false, branch_name :: visited)

/-- The outer `for branch_name in self.branches` loop of
`validate_no_cycles`, threading `visited` across roots and raising at the
first root whose `has_cycle` returns true. -/
def validateAux (s : Stack) (visited : List String) :
    List String → Except StackErr Unit
  | [] => .ok ()
  | n :: ns =>
    if n ∈ visited then validateAux s visited ns
    else
      match hasCycleAux s (s.branches.length + 1) visited [] n with
      | (true, _) => .error (.cycleDetected n)
      | (false, v) => validateAux s v ns

/-- `Stack.validate_no_cycles`. -/
def validate_no_cycles (s : Stack) : Except StackErr Unit :=
  validateAux s [] s.keys

/-- `Stack.get_branch_count`. -/
def get_branch_count (s : Stack) : Nat := s.branches.length

/-- `Stack.get_max_depth`. -/
def get_max_depth (s : Stack) : Nat :=
  ((s.branches.map Prod.snd).map (fun b => b.get_depth s)).foldr max 0

end Stack

/-! ### Branch-name utilities (`utils/branch_name.py`)

Strings are processed as `List Char`.  Python's `str.lower()` is modelled
as ASCII lowering (the sanitizer strips, right after lowering, every
character other than lowercase letters, digits, hyphen and slash, so this
only matters for exotic Unicode case pairs, which the repository never
feeds in). -/

namespace BranchName

/-- One character of `str.lower()` (ASCII). -/
def lowerChar (c : Char) : Char :=
  if 'A' ≤ c ∧ c ≤ 'Z' then Char.ofNat (c.toNat + 32) else c

/-- `component.replace(" ", "-").replace("_", "-")`, one character. -/
def spaceUnderscoreToHyphen (c : Char) : Char :=
  if c = ' ' ∨ c = '_' then '-' else c

/-- Membership in the kept class of the `re.sub` that deletes every
character other than lowercase `a`–`z`, digits, hyphen and slash. -/
def keptChar (c : Char) : Bool :=
  ('a' ≤ c ∧ c ≤ 'z') ∨ ('0' ≤ c ∧ c ≤ '9') ∨ c = '-' ∨ c = '/'

/-- `re.sub(r"-+", "-", ·)`: collapse each run of hyphens to one. -/
def collapseHyphens : List Char → List Char
  | [] => []
  | [c] => [c]
  | a :: b :: rest =>
    if a = '-' ∧ b = '-' then collapseHyphens (b :: rest)
    else a :: collapseHyphens (b :: rest)

/-- `str.strip(chars)`: drop characters satisfying `p` from both ends. -/
def stripEnds (p : Char → Bool) (cs : List Char) : List Char :=
  ((cs.dropWhile p).reverse.dropWhile p).reverse

/-- `_sanitize_branch_component` over `List Char`. -/
def sanitizeChars (cs : List Char) : List Char :=
  if cs = [] then []
  else
    stripEnds (· = '-')
      (collapseHyphens
        (((cs.map lowerChar).map spaceUnderscoreToHyphen).filter keptChar))

/-- `_sanitize_branch_component`. -/
def sanitize_branch_component (s : String) : String :=
  ⟨sanitizeChars s.data⟩

/-- `"/".join(parts)` over `List Char` pieces. -/
def joinSlash : List (List Char) → List Char
  | [] => []
  | [p] => p
  | p :: ps => p ++ '/' :: joinSlash ps

/-- `_clean_branch_name` over `List Char`: collapse hyphen runs, strip
leading/trailing `-` and `/`, then strip periods from each `/`-component
and drop components that become empty. -/
def cleanChars (cs : List Char) : List Char :=
  let cs := collapseHyphens cs
  let cs := stripEnds (fun c => c = '-' ∨ c = '/') cs
  let parts := (cs.splitOn '/').map (stripEnds (· = '.'))
  joinSlash (parts.filter (· ≠ []))

/-- `_clean_branch_name`. -/
def clean_branch_name (s : String) : String := ⟨cleanChars s.data⟩

/-- Fuelled core of `str.format`: each step consumes at least one input
character, so the wrapper's fuel `length + 1` is never exhausted. -/
def substTemplateF (vals : List (List Char × List Char)) : Nat → List Char → Option (List Char)
  | 0, _ => none
  | _, [] => some []
  | fuel + 1, '{' :: rest =>
    let key := rest.takeWhile (· ≠ '}')
    match rest.dropWhile (· ≠ '}') with
    | [] => none
    | _ :: rest' =>
      match (vals.find? (fun kv => kv.1 = key)).map Prod.snd with
      | some v => (substTemplateF vals fuel rest').map (v ++ ·)
      | none => none
  | fuel + 1, c :: rest => (substTemplateF vals fuel rest).map (c :: ·)

/-- `str.format` restricted to the four placeholder names actually
recognized by `generate_branch_name`; an unknown placeholder or an
unterminated brace is `none` (Python raises `KeyError`/`ValueError`). -/
def substTemplate (vals : List (List Char × List Char)) (cs : List Char) : Option (List Char) :=
  substTemplateF vals (cs.length + 1) cs

/-- Failure modes of `generate_branch_name` (`ValueError` raise sites). -/
inductive GenErr where
  | emptyDescription
  | emptyResult
  | badTemplate
  deriving Repr, DecidableEq

/-- Python's `str.strip()`-based emptiness test `not description.strip()`:
true when every character is whitespace. -/
def allWhitespace (cs : List Char) : Bool :=
  cs.all (fun c => c = ' ' ∨ c = '\t' ∨ c = '\n' ∨ c = '\r')

/-- `generate_branch_name`.  `date` stands for
`datetime.now().strftime(date_format)` and `username` for the resolved
username (the `USER`/`USERNAME` environment fallback happens before this
pure core). -/
def generate_branch_name (description : String) (prefixv : String := "")
    (template : String := "\x7bprefix\x7d{date}_{username}_{description}")
    (date : String := "") (username : String := "user") : Except GenErr String :=
  if description = "" ∨ allWhitespace description.data then
    .error .emptyDescription
  else
    let sanitized_prefix := sanitizeChars prefixv.data
    let sanitized_username := sanitizeChars username.data
    let sanitized_description := sanitizeChars description.data
    match substTemplate
        [("prefix".data, sanitized_prefix), ("date".data, date.data),
         ("username".data, sanitized_username), ("description".data, sanitized_description)]
        template.data with
    | none => .error .badTemplate
    | some rendered =>
      let branch_name := cleanChars rendered
      if branch_name = [] then .error .emptyResult
      else .ok ⟨branch_name⟩

/-- The raise sites of `validate_branch_name`, in source order; each
constructor is one distinct error message. -/
inductive NameRule where
  | empty          -- "Branch name cannot be empty"
  | startHyphen    -- r"^-"
  | endHyphen      -- r"-$"
  | doubleDot      -- r"\.\."
  | startSlash     -- r"^/"
  | endSlash       -- r"/$"
  | doubleSlash    -- r"//"
  | atBrace        -- r"@\{"
  | controlChar    -- r"[\x00-\x1f\x7f]"
  | specialChar    -- r"[ ~^:?*\[]"
  | reservedName   -- name in {"@", "."}
  | componentDot   -- component starts with "."
  deriving Repr, DecidableEq

/-- Two-character substring test (for `..`, `//`, `@{`). -/
def hasSub2 (a b : Char) : List Char → Bool
  | [] => false
  | [_] => false
  | x :: y :: rest => (x = a ∧ y = b) ∨ hasSub2 a b (y :: rest)

/-- A control character per `[\x00-\x1f\x7f]`. -/
def isControl (c : Char) : Bool := c.toNat ≤ 0x1f ∨ c.toNat = 0x7f

/-- A character matched by `[ ~^:?*\[]`. -/
def isSpecial (c : Char) : Bool :=
  c = ' ' ∨ c = '~' ∨ c = '^' ∨ c = ':' ∨ c = '?' ∨ c = '*' ∨ c = '['

/-- Python's `re.search` of the anchored single-character pattern `X$`
(no `re.MULTILINE`): `$` matches at the very end of the string and also
just before a newline at the end of the string, so the pattern matches
iff the string ends with `X` or with `X` followed by one final newline. -/
def searchEnd (x : Char) (cs : List Char) : Bool :=
  cs.getLast? = some x ∨ (cs.getLast? = some '\n' ∧ cs.dropLast.getLast? = some x)

/-- `validate_branch_name`, returning the first violated rule in the
source's check order.  The `r"^-"` and `r"^/"` patterns reduce to a
first-character test (`^` only matches at position 0 without
`re.MULTILINE`); the `r"-$"` and `r"/$"` patterns use `searchEnd`, which
also fires just before one trailing newline. -/
def validate_branch_name (name : String) : Except NameRule Unit :=
  if name.data = [] then .error .empty
  else if name.data.head? = some '-' then .error .startHyphen
  else if searchEnd '-' name.data then .error .endHyphen
  else if hasSub2 '.' '.' name.data then .error .doubleDot
  else if name.data.head? = some '/' then .error .startSlash
  else if searchEnd '/' name.data then .error .endSlash
  else if hasSub2 '/' '/' name.data then .error .doubleSlash
  else if hasSub2 '@' '{' name.data then .error .atBrace
  else if name.data.any isControl then .error .controlChar
  else if name.data.any isSpecial then .error .specialChar
  else if name = "@" ∨ name = "." then .error .reservedName
  else if (name.data.splitOn '/').any (fun part => part.head? = some '.') then .error .componentDot
  else .ok ()

end BranchName

/-! ### Serialization (`Branch.to_dict`/`from_dict`, `Stack.to_dict`/`from_dict`)

A persisted record is modelled shape-for-shape; a JSON key that may be
absent becomes an `Option` field (`none` = key missing, and for `parent` /
`pr_number` also JSON `null`, which `data.get` cannot distinguish from a
missing key).  ISO-8601 timestamps stay abstract `Nat`s. -/

/-- The `BranchRecord` dictionary shape. -/
structure BranchRecord where
  name : String
  parent : Option String := none
  pr_number : Option Nat := none
  created_at : Option Nat := none
  updated_at : Option Nat := none
  commit_hash : Option String := none
  description : Option String := none
  children : Option (List String) := none
  deriving Repr, DecidableEq

/-- `Branch.to_dict` (every key is emitted, hence `some`). -/
def Branch.to_dict (b : Branch) : BranchRecord :=
  { name := b.name
    parent := b.parent
    pr_number := b.pr_number
    created_at := some b.created_at
    updated_at := some b.updated_at
    commit_hash := some b.commit_hash
    description := some b.description
    children := some b.children }

/-- `Branch.from_dict`; `t` is the `datetime.now()` value used when a
timestamp key is absent. -/
def Branch.from_dict (data : BranchRecord) (t : Nat := 0) : Branch :=
  { name := data.name
    parent := data.parent
    pr_number := data.pr_number
    created_at := data.created_at.getD t
    updated_at := data.updated_at.getD t
    commit_hash := data.commit_hash.getD ""
    description := data.description.getD ""
    children := data.children.getD [] }

/-- The persisted `Stack` dictionary shape. -/
structure StackRecord where
  branches : List (String × BranchRecord) := []
  trunk : Option String := none
  created_at : Option Nat := none
  updated_at : Option Nat := none
  deriving Repr, DecidableEq

/-- `Stack.to_dict`. -/
def Stack.to_dict (s : Stack) : StackRecord :=
  { branches := s.branches.map (fun p => (p.1, p.2.to_dict))
    trunk := some s.trunk
    created_at := some s.created_at
    updated_at := some s.updated_at }

/-- `Stack.from_dict`: each persisted record is deserialized verbatim
(`children` included); nothing is rebuilt from `parent` links. -/
def Stack.from_dict (data : StackRecord) (t : Nat := 0) : Stack :=
  { branches := data.branches.map (fun p => (p.1, Branch.from_dict p.2 t))
    trunk := data.trunk.getD "main"
    created_at := data.created_at.getD t
    updated_at := data.updated_at.getD t }

/-! ### Specification-level predicates over stacks -/

namespace Stack

/-- Spec invariant 1, made effective: following `parent` links from `b`
reaches a branch with `parent = None` within at most `fuel` hops. -/
def terminatesWithin (s : Stack) : Nat → Branch → Bool
  | 0, b => b.parent.isNone
  | fuel + 1, b =>
    match b.parent with
    | none => true
    | some p =>
      match s.lookup p with
      | none => false
      | some pb => terminatesWithin s fuel pb

/-- Spec invariant 1 for a whole stack: every branch's parent chain ends
at a trunk within `|branches|` hops. -/
def acyclicBounded (s : Stack) : Prop :=
  ∀ p ∈ s.branches, terminatesWithin s s.branches.length p.2

/-- Spec invariant 2: every set `parent` names an existing branch. -/
def refIntegrity (s : Stack) : Prop :=
  ∀ p ∈ s.branches, ∀ q, p.2.parent = some q → s.hasKey q

/-- Spec `children` invariant: every branch's `children` set is exactly
the set of branch names whose `parent` field points at it. -/
def childrenConsistent (s : Stack) : Prop :=
  ∀ p ∈ s.branches, ∀ m,
    m ∈ p.2.children ↔ ∃ c, s.lookup m = some c ∧ c.parent = some p.1

/-- The conjunction of forest invariants named by claim C1. -/
def forestInvariants (s : Stack) : Prop :=
  acyclicBounded s ∧ refIntegrity s ∧ childrenConsistent s

/-- Stacks reachable from an empty `Stack()` by successful `add_branch` /
`remove_branch` calls with arbitrary `name` and `parent` arguments (claim
C1 as stated). -/
inductive Reachable : Stack → Prop where
  | empty (trunk : String) (c u : Nat) :
      Reachable { branches := [], trunk := trunk, created_at := c, updated_at := u }
  | add (s s' : Stack) (br : Branch) (name : String) (parent : Option String) (t : Nat) :
      Reachable s → s.add_branch name parent t = .ok (s', br) → Reachable s'
  | remove (s s' : Stack) (name : String) (t : Nat) :
      Reachable s → s.remove_branch name t = .ok s' → Reachable s'

/-- As `Reachable`, but every `parent` argument passed to `add_branch` is
either `None` or a non-empty string (the amendment claim C1 needs: the
empty string is truthiness-exempt from the source's parent checks). -/
inductive ReachableNE : Stack → Prop where
  | empty (trunk : String) (c u : Nat) :
      ReachableNE { branches := [], trunk := trunk, created_at := c, updated_at := u }
  | add (s s' : Stack) (br : Branch) (name : String) (parent : Option String) (t : Nat) :
      ReachableNE s → parent ≠ some "" →
      s.add_branch name parent t = .ok (s', br) → ReachableNE s'
  | remove (s s' : Stack) (name : String) (t : Nat) :
      ReachableNE s → s.remove_branch name t = .ok s' → ReachableNE s'

/-- The `children` adjacency claim C2 speaks about: `a` lists `b` among
its children (edges leave only names present in `branches`). -/
def childAdj (s : Stack) (a b : String) : Prop :=
  ∃ br, s.lookup a = some br ∧ b ∈ br.children

/-- A cycle in the `children` adjacency. -/
def hasCycleIn (s : Stack) : Prop :=
  ∃ n, Relation.TransGen (childAdj s) n n

/-- A cycle of the `children` adjacency lies on some path out of `r`. -/
def cycleReachableFrom (s : Stack) (r : String) : Prop :=
  ∃ n, Relation.ReflTransGen (childAdj s) r n ∧ Relation.TransGen (childAdj s) n n

/-- The number of present branch names not yet visited: the quantity that
bounds the depth of the `has_cycle` recursion (each recursion level visits
a fresh name, and only present names recurse further). -/
def remainingCount (s : Stack) (visited : List String) : Nat :=
  (s.keys.filter (fun k => k ∉ visited)).length

/-- `m`'s parent link points at `a` (`m` present). -/
def parentRel (s : Stack) (m a : String) : Prop :=
  ∃ b, s.lookup m = some b ∧ b.parent = some a

/-- No branch is its own strict ancestor. -/
def parentAcyclic (s : Stack) : Prop :=
  ∀ n, ¬ Relation.TransGen (parentRel s) n n

/-- The well-formedness of the `branches` dict representation plus the
spec's §3 invariants: unique keys, each value keyed by its own `name`,
`children` sets duplicate-free, referential integrity, consistent
back-references and an acyclic parent graph.  This is what the spec calls
a *valid* Stack. -/
structure Valid (s : Stack) : Prop where
  nodupKeys : s.keys.Nodup
  nameEq : ∀ p ∈ s.branches, p.2.name = p.1
  childrenNodup : ∀ p ∈ s.branches, p.2.children.Nodup
  refInt : refIntegrity s
  childrenInv : childrenConsistent s
  acyclic : parentAcyclic s

/-- `branches` association lists in mutation order are topologically
sorted: every entry's stored parent is a key of an *earlier* entry (or of
the ambient `seen` accumulator).  `add_branch` appends children after
their parents and `remove_branch` deletes unreferenced leaves, so this is
an invariant of the mutation API. -/
def TopoFrom : List String → List (String × Branch) → Prop
  | _, [] => True
  | seen, q :: rest =>
    (∀ pn, q.2.parent = some pn → pn ∈ seen) ∧ TopoFrom (q.1 :: seen) rest

/-- `childrenConsistent` phrased through `lookup` (equivalent on stacks
with duplicate-free keys). -/
def childrenConsistentL (s : Stack) : Prop :=
  ∀ n b, s.lookup n = some b → ∀ m,
    m ∈ b.children ↔ ∃ c, s.lookup m = some c ∧ c.parent = some n

/-- Referential integrity phrased through `lookup`. -/
def refIntegrityL (s : Stack) : Prop :=
  ∀ n b, s.lookup n = some b → ∀ pn, b.parent = some pn → s.hasKey pn = true

/-- The inductive invariant maintained by the mutation API (for stacks
built by `add_branch`/`remove_branch` with no empty-string parent
argument): duplicate-free keys, no stored empty-string parent, parents
stored before children, duplicate-free children sets, referential
integrity, and children sets matching the inverse parent relation. -/
structure WFInv (s : Stack) : Prop where
  nodupKeys : s.keys.Nodup
  parentsNE : ∀ q ∈ s.branches, q.2.parent ≠ some ""
  topo : TopoFrom [] s.branches
  childrenNodup : ∀ q ∈ s.branches, q.2.children.Nodup
  childrenInvL : childrenConsistentL s

/-- The raise condition claim C4 states for `add_branch`: the name is a
duplicate, or a parent argument is given (non-`None`) and absent. -/
def addRaiseClaimed (s : Stack) (name : String) (parent : Option String) : Prop :=
  s.hasKey name ∨ (∃ p, parent = some p ∧ ¬ s.hasKey p)

end Stack

namespace BranchName

/-- Rule-by-rule violation predicates, worded as in the spec's Ref
Validator paragraph (plus `endHyphen`, the rule the source enforces but
the claim's list omits). -/
def violates : NameRule → String → Bool
  | .empty, n => n = ""
  | .startHyphen, n => n.data.head? = some '-'
  | .endHyphen, n => n.data.getLast? = some '-'
  | .doubleDot, n => hasSub2 '.' '.' n.data
  | .startSlash, n => n.data.head? = some '/'
  | .endSlash, n => n.data.getLast? = some '/'
  | .doubleSlash, n => hasSub2 '/' '/' n.data
  | .atBrace, n => hasSub2 '@' '{' n.data
  | .controlChar, n => n.data.any isControl
  | .specialChar, n => n.data.any isSpecial
  | .reservedName, n => n = "@" ∨ n = "."
  | .componentDot, n => (n.data.splitOn '/').any (fun part => part.head? = some '.')

/-- The rules claim C8 lists (every rule of the validator except the
trailing-hyphen one). -/
def claimedRules : List NameRule :=
  [.empty, .startHyphen, .doubleDot, .startSlash, .endSlash, .doubleSlash,
   .atBrace, .controlChar, .specialChar, .reservedName, .componentDot]

end BranchName

/-! ### Concrete stacks used by counterexamples and witnesses -/

/-- `Stack()` then `add_branch("main")` at clock 1. -/
def exMain : Stack :=
  { branches := [("main", { name := "main", created_at := 1, updated_at := 1 })]
    trunk := "main", created_at := 0, updated_at := 1 }

/-- The doctest chain `main ← feature1 ← feature2` built at clocks 1,2,3. -/
def exChain : Stack :=
  { branches :=
      [("main", { name := "main", created_at := 1, updated_at := 2, children := ["feature1"] }),
       ("feature1", { name := "feature1", parent := some "main", created_at := 2,
                      updated_at := 3, children := ["feature2"] }),
       ("feature2", { name := "feature2", parent := some "feature1", created_at := 3,
                      updated_at := 3 })]
    trunk := "main", created_at := 0, updated_at := 3 }

/-- A tampered stack whose `children` adjacency has the cycle
`b → c → b`, while `a` merely points into it: `a` is the first dict key,
so the detection DFS starts there. -/
def exCyc : Stack :=
  { branches :=
      [("a", { name := "a", children := ["b"] }),
       ("b", { name := "b", children := ["c"] }),
       ("c", { name := "c", children := ["b"] })]
    trunk := "main", created_at := 0, updated_at := 0 }

/-- The stack that  `Stack()` → `add_branch("a")` → `add_branch("b", parent="")`
produces: branch `b` records the empty string as its parent. -/
def exEmptyParent : Stack :=
  { branches := [("a", { name := "a", created_at := 1, updated_at := 1 }),
                 ("b", { name := "b", parent := some "", created_at := 2, updated_at := 2 })]
    trunk := "main", created_at := 0, updated_at := 2 }

/-- A tampered stack: `p` already lists the absent name `x` among its
children. -/
def exStale : Stack :=
  { branches := [("p", { name := "p", children := ["x"] })]
    trunk := "main", created_at := 0, updated_at := 0 }

/-- A snapshot whose persisted `children` list names a branch (`ghost`)
that does not exist, while no branch's `parent` points at `main`. -/
def exStaleRecord : StackRecord :=
  { branches := [("main", { name := "main", children := some ["ghost"],
                            created_at := some 1, updated_at := some 1 })]
    trunk := some "main", created_at := some 0, updated_at := some 1 }

/-! ### Generic lemmas about the association-list dict -/

namespace Stack

theorem lookup_nil (trunk : String) (c u : Nat) (k : String) :
    (Stack.mk [] trunk c u).lookup k = none := rfl

theorem lookup_cons (p : String × Branch) (l : List (String × Branch))
    (tr : String) (c u : Nat) (k : String) :
    (Stack.mk (p :: l) tr c u).lookup k =
      if p.1 = k then some p.2 else (Stack.mk l tr c u).lookup k := by
  by_cases h : p.1 = k
  · simp [lookup, List.find?_cons_of_pos, h]
  · rw [lookup, List.find?_cons_of_neg]
    · simp [lookup, h]
    · simp [h]

theorem lookup_append_branch (l : List (String × Branch)) (nb : String × Branch)
    (tr : String) (c u : Nat) (k : String) :
    (Stack.mk (l ++ [nb]) tr c u).lookup k =
      match (Stack.mk l tr c u).lookup k with
      | some b => some b
      | none => if nb.1 = k then some nb.2 else none := by
  induction l with
  | nil =>
    rw [List.nil_append, lookup_nil, lookup_cons, lookup_nil]
  | cons p l ih =>
    rw [List.cons_append, lookup_cons, lookup_cons]
    by_cases h : p.1 = k
    · simp [h]
    · simp only [if_neg h]
      exact ih

theorem lookup_updateAt (s : Stack) (p : String) (f : Branch → Branch) (k : String) :
    (s.updateAt p f).lookup k = if k = p then (s.lookup k).map f else s.lookup k := by
  rcases s with ⟨l, tr, c, u⟩
  simp only [updateAt, lookup, List.find?_map]
  have hpred : ((fun (r : String × Branch) => decide (r.1 = k)) ∘
      (fun r => if r.1 = p then (r.1, f r.2) else r)) =
      (fun (r : String × Branch) => decide (r.1 = k)) := by
    funext r
    by_cases h : r.1 = p <;> simp [h]
  rw [hpred]
  cases hf : l.find? (fun r => decide (r.1 = k)) with
  | none => split <;> simp
  | some r =>
    have hr : r.1 = k := by
      have := List.find?_some hf
      simpa using this
    by_cases hkp : k = p
    · subst hkp
      simp [hr]
    · have hrp : ¬ (r.1 = p) := by rw [hr]; exact hkp
      simp [hrp, hkp]

end Stack

namespace Stack

theorem parentTruthy_iff (po : Option String) :
    parentTruthy po = true ↔ ∃ p, po = some p ∧ p ≠ "" := by
  cases po with
  | none => simp [parentTruthy]
  | some p => simp [parentTruthy]

theorem keys_append (l : List (String × Branch)) (nb : String × Branch)
    (tr : String) (c u : Nat) :
    (Stack.mk (l ++ [nb]) tr c u).keys = (Stack.mk l tr c u).keys ++ [nb.1] := by
  simp [keys]

theorem keys_updateAt (s : Stack) (p : String) (f : Branch → Branch) :
    (s.updateAt p f).keys = s.keys := by
  rcases s with ⟨l, tr, c, u⟩
  simp only [keys, updateAt, List.map_map]
  apply List.map_congr_left
  intro r _
  by_cases h : r.1 = p <;> simp [h]

theorem updateAt_updated_at (s : Stack) (p : String) (f : Branch → Branch) :
    (s.updateAt p f).updated_at = s.updated_at := rfl

theorem hasKey_eq_false_iff (s : Stack) (k : String) :
    s.hasKey k = false ↔ s.lookup k = none := by
  unfold hasKey
  cases s.lookup k <;> simp

theorem hasKey_eq_true_iff (s : Stack) (k : String) :
    s.hasKey k = true ↔ ∃ b, s.lookup k = some b := by
  unfold hasKey
  cases s.lookup k <;> simp

end Stack

/-! ### Claim C10 -/

/-- C10: `update_metadata` stores `commit_hash` / `description` only when
the argument is a non-empty string (so an empty-string argument behaves
exactly like the omitted default `""` and neither field can ever be
cleared through this operation), always sets `updated_at` to the current
clock, and leaves `name`, `parent`, `pr_number`, `children` and
`created_at` untouched. -/
theorem update_metadata_characterization (b : Branch) (ch ds : String) (t : Nat) :
    (b.update_metadata ch ds t).commit_hash = (if ch ≠ "" then ch else b.commit_hash) ∧
    (b.update_metadata ch ds t).description = (if ds ≠ "" then ds else b.description) ∧
    (b.update_metadata ch ds t).updated_at = t ∧
    (b.update_metadata ch ds t).name = b.name ∧
    (b.update_metadata ch ds t).parent = b.parent ∧
    (b.update_metadata ch ds t).pr_number = b.pr_number ∧
    (b.update_metadata ch ds t).children = b.children ∧
    (b.update_metadata ch ds t).created_at = b.created_at := by
  unfold Branch.update_metadata
  by_cases hch : ch = "" <;> by_cases hds : ds = "" <;> simp [hch, hds]

/-! ### Claim C3 -/

/-- C3: whenever `add_branch` or `remove_branch` raises, the stack state
carried out by the exception is exactly the entry state — no branch, no
field and no timestamp has been touched by a rejected mutation. -/
theorem rejected_mutation_leaves_stack_unchanged (s : Stack) (name : String)
    (parent : Option String) (t : Nat) (e : StackErr) (s' : Stack) :
    (s.add_branch name parent t = .error (e, s') → s' = s) ∧
    (s.remove_branch name t = .error (e, s') → s' = s) := by
  constructor
  · intro h
    unfold Stack.add_branch at h
    split at h
    · simp only [Except.error.injEq, Prod.mk.injEq] at h
      exact h.2.symm
    · split at h
      · simp only [Except.error.injEq, Prod.mk.injEq] at h
        exact h.2.symm
      · simp at h
  · intro h
    unfold Stack.remove_branch at h
    split at h
    · simp only [Except.error.injEq, Prod.mk.injEq] at h
      exact h.2.symm
    · split at h
      · simp only [Except.error.injEq, Prod.mk.injEq] at h
        exact h.2.symm
      · simp at h

/-- Witness for C3: on the one-branch stack `exMain`, re-adding `main`
and removing the absent `ghost` both raise, and the theorem yields that
the carried-out state is the entry state. -/
theorem rejected_mutation_leaves_stack_unchanged_witness :
    (exMain.add_branch "main" none 5 = .error (.duplicateBranch "main", exMain)) ∧
    (exMain.remove_branch "ghost" 5 = .error (.unknownBranch "ghost", exMain)) ∧
    exMain = exMain :=
  ⟨rfl, rfl,
   (rejected_mutation_leaves_stack_unchanged exMain "main" none 5
      (.duplicateBranch "main") exMain).1 rfl⟩


/-! ### Claim C4 -/

namespace Stack

/-- Restatement of `lookup_append_branch` against an abstract stack. -/
theorem lookup_append_branch' (s : Stack) (nb : String × Branch)
    (tr : String) (c u : Nat) (k : String) :
    (Stack.mk (s.branches ++ [nb]) tr c u).lookup k =
      match s.lookup k with
      | some b => some b
      | none => if nb.1 = k then some nb.2 else none :=
  lookup_append_branch s.branches nb tr c u k

/-- Restatement of `keys_append` against an abstract stack. -/
theorem keys_append' (s : Stack) (nb : String × Branch) (tr : String) (c u : Nat) :
    (Stack.mk (s.branches ++ [nb]) tr c u).keys = s.keys ++ [nb.1] :=
  keys_append s.branches nb tr c u

end Stack

/-- Counterexample to C4 as stated: on the one-branch stack `exMain`, the
call `add_branch("b", parent="")` passes a parent argument (the empty
string) that is not a key of `branches`, yet the call succeeds — the
source's `if parent and ...` truthiness check exempts the empty string. -/
theorem add_branch_raise_iff_counterexample :
    ¬ ((∃ r, exMain.add_branch "b" (some "") 5 = .error r) ↔
        Stack.addRaiseClaimed exMain "b" (some "")) := by
  intro h
  have hclaim : Stack.addRaiseClaimed exMain "b" (some "") := by
    right
    exact ⟨"", rfl, by decide⟩
  rcases h.mpr hclaim with ⟨r, hr⟩
  have hok : exMain.add_branch "b" (some "") 5 =
      .ok ({ branches := exMain.branches ++
               [("b", { name := "b", parent := some "", created_at := 5, updated_at := 5 })]
             trunk := "main", created_at := 0, updated_at := 5 },
           { name := "b", parent := some "", created_at := 5, updated_at := 5 }) := rfl
  rw [hok] at hr
  cases hr

/-- C4 (amended): `add_branch(name, parent)` raises iff `name` is already
a key, or the parent argument is given, **non-empty**, and absent (an
empty-string parent is exempt from the parent check by Python truthiness
and is stored verbatim in the new branch's `parent` field); on success it
constructs the branch with both timestamps at the current clock, appends
it under `name`, bumps the stack's `updated_at`, adds `name` to the
children of the given non-empty parent, and touches no other entry. -/
theorem add_branch_characterization (s : Stack) (name : String) (parent : Option String)
    (t : Nat) :
    ((∃ r, s.add_branch name parent t = .error r) ↔
      (s.hasKey name = true ∨ ∃ p, parent = some p ∧ p ≠ "" ∧ s.hasKey p = false)) ∧
    (∀ s' br, s.add_branch name parent t = .ok (s', br) →
      br = { name := name, parent := parent, created_at := t, updated_at := t } ∧
      s'.updated_at = t ∧
      s'.keys = s.keys ++ [name] ∧
      s'.lookup name = some br ∧
      (∀ p, parent = some p → p ≠ "" →
        ∃ pb, s.lookup p = some pb ∧ s'.lookup p = some (pb.add_child name t)) ∧
      (∀ k, k ≠ name → (∀ p, parent = some p → p ≠ "" → k ≠ p) →
        s'.lookup k = s.lookup k)) := by
  have truthyiff := Stack.parentTruthy_iff parent
  constructor
  · unfold Stack.add_branch
    by_cases hA : s.hasKey name = true
    · rw [if_pos hA]
      constructor
      · intro _
        exact Or.inl hA
      · intro _
        exact ⟨(.duplicateBranch name, s), rfl⟩
    · rw [if_neg (by simpa using hA)]
      by_cases hB : (Stack.parentTruthy parent = true ∧ ¬ s.hasKey (parent.getD "") = true)
      · rw [if_pos (by exact_mod_cast hB)]
        constructor
        · intro _
          right
          rcases truthyiff.mp hB.1 with ⟨p, hp, hpne⟩
          refine ⟨p, hp, hpne, ?_⟩
          have h2 := hB.2
          rw [hp] at h2
          simpa using h2
        · intro _
          exact ⟨(.unknownParent (parent.getD ""), s), rfl⟩
      · rw [if_neg (by exact_mod_cast hB)]
        constructor
        · rintro ⟨r, hr⟩
          cases hr
        · rintro (h | ⟨p, hp, hpne, habs⟩)
          · exact absurd h hA
          · exact absurd ⟨truthyiff.mpr ⟨p, hp, hpne⟩, by rw [hp]; simp [habs]⟩ hB
  · intro s' br h
    unfold Stack.add_branch at h
    split at h
    · cases h
    · split at h
      · cases h
      · rename_i hA hB
        simp only [Except.ok.injEq, Prod.mk.injEq] at h
        obtain ⟨hs', hbr⟩ := h
        have hAfalse : s.hasKey name = false := by simpa using hA
        have hAn : s.lookup name = none := (Stack.hasKey_eq_false_iff s name).mp hAfalse
        refine ⟨hbr.symm, ?_, ?_, ?_, ?_, ?_⟩
        · rw [← hs']
          split
          · exact Stack.updateAt_updated_at _ _ _
          · rfl
        · rw [← hs']
          split
          · rw [Stack.keys_updateAt, Stack.keys_append']
          · exact Stack.keys_append' s _ s.trunk s.created_at t
        · rw [← hs', ← hbr]
          split
          · rename_i hcond
            rw [Stack.lookup_updateAt]
            have hpkey : s.hasKey (parent.getD "") = true := by
              by_contra hcontra
              exact hB ⟨hcond.1, by simpa using hcontra⟩
            have hpn : ¬ (name = parent.getD "") := by
              intro hEq
              rw [← hEq, hAfalse] at hpkey
              cases hpkey
            rw [if_neg hpn, Stack.lookup_append_branch', hAn]
            simp
          · rw [Stack.lookup_append_branch', hAn]
            simp
        · intro p hp hpne
          have htruthy : Stack.parentTruthy parent = true := truthyiff.mpr ⟨p, hp, hpne⟩
          have hpkey : s.hasKey (parent.getD "") = true := by
            by_contra hcontra
            exact hB ⟨htruthy, by simpa using hcontra⟩
          rw [hp] at hpkey
          rcases (Stack.hasKey_eq_true_iff s p).mp hpkey with ⟨pb, hpb⟩
          refine ⟨pb, hpb, ?_⟩
          rw [← hs']
          have hs1p : (Stack.mk (s.branches ++
              [(name, { name := name, parent := parent, created_at := t, updated_at := t })])
              s.trunk s.created_at t).lookup p = some pb := by
            rw [Stack.lookup_append_branch', hpb]
          have hgd : parent.getD "" = p := by rw [hp]; rfl
          split
          · rename_i hcond
            rw [Stack.lookup_updateAt, hgd, if_pos rfl, hs1p]
            rfl
          · rename_i hcond
            exfalso
            apply hcond
            refine ⟨htruthy, ?_⟩
            rw [Stack.hasKey_eq_true_iff, hgd]
            exact ⟨pb, hs1p⟩
        · intro k hkname hkpar
          have hs1k : (Stack.mk (s.branches ++
              [(name, { name := name, parent := parent, created_at := t, updated_at := t })])
              s.trunk s.created_at t).lookup k = s.lookup k := by
            rw [Stack.lookup_append_branch']
            cases hv : s.lookup k with
            | some b => rfl
            | none => rw [if_neg (fun h => hkname (Eq.symm h))]
          rw [← hs']
          split
          · rename_i hcond
            rw [Stack.lookup_updateAt]
            rcases truthyiff.mp hcond.1 with ⟨p, hp, hpne⟩
            have hgd : parent.getD "" = p := by rw [hp]; rfl
            have hkp : ¬ (k = parent.getD "") := by
              rw [hgd]
              exact hkpar p hp hpne
            rw [if_neg hkp]
            exact hs1k
          · exact hs1k

/-- Witness for C4 (amended): on `exMain`, adding `feature` under parent
`main` succeeds, and the theorem's success clause yields the parent's
updated children set. -/
theorem add_branch_characterization_witness :
    (∃ pb, exMain.lookup "main" = some pb ∧
      ({ branches :=
           [("main", { name := "main", created_at := 1, updated_at := 5,
                       children := ["feature"] }),
            ("feature", { name := "feature", parent := some "main",
                          created_at := 5, updated_at := 5 })]
         trunk := "main", created_at := 0, updated_at := 5 } : Stack).lookup "main" =
        some (pb.add_child "feature" 5)) :=
  ((add_branch_characterization exMain "feature" (some "main") 5).2
    _ _ rfl).2.2.2.2.1 "main" rfl (by decide)


/-! ### Claim C9 -/

namespace BranchName

theorem toNat_ofNat_valid (n : Nat) (h : n.isValidChar) : (Char.ofNat n).toNat = n := by
  rw [Char.ofNat, dif_pos h]
  simp [Char.ofNatAux, Char.toNat, UInt32.toNat, BitVec.toNat_ofNatLt]

theorem lowerChar_slash (c : Char) : (lowerChar c = '/') ↔ (c = '/') := by
  unfold lowerChar
  split
  · rename_i h
    have h65 : 65 ≤ c.toNat := h.1
    have h90 : c.toNat ≤ 90 := h.2
    constructor
    · intro hEq
      exfalso
      have hv : (c.toNat + 32).isValidChar := Or.inl (by omega)
      have := toNat_ofNat_valid (c.toNat + 32) hv
      rw [hEq] at this
      have : (47 : Nat) = c.toNat + 32 := this
      omega
    · intro hEq
      exfalso
      rw [hEq] at h65
      have : ('/').toNat = 47 := rfl
      omega
  · exact Iff.rfl

theorem spaceUnderscore_slash (c : Char) :
    (spaceUnderscoreToHyphen c = '/') ↔ (c = '/') := by
  unfold spaceUnderscoreToHyphen
  split
  · rename_i h
    constructor
    · intro hEq
      cases hEq
    · intro hEq
      rcases h with h | h <;> rw [hEq] at h <;> cases h
  · exact Iff.rfl

theorem collapse_cons_head :
    ∀ (x : Char) (xs : List Char), ∃ tl, collapseHyphens (x :: xs) = x :: tl
  | _, [] => ⟨[], rfl⟩
  | x, y :: ys => by
    rw [collapseHyphens]
    split
    · rename_i h
      obtain ⟨tl, htl⟩ := collapse_cons_head y ys
      exact ⟨tl, by rw [htl, h.1, h.2]⟩
    · exact ⟨collapseHyphens (y :: ys), rfl⟩

theorem collapseHyphens_chain :
    ∀ (l : List Char), (collapseHyphens l).Chain' (fun a b => ¬ (a = '-' ∧ b = '-'))
  | [] => by simp [collapseHyphens]
  | [c] => by simp [collapseHyphens]
  | a :: b :: rest => by
    rw [collapseHyphens]
    split
    · exact collapseHyphens_chain (b :: rest)
    · rename_i h
      obtain ⟨tl, htl⟩ := collapse_cons_head b rest
      have ih := collapseHyphens_chain (b :: rest)
      rw [htl] at ih ⊢
      exact List.Chain'.cons h ih

theorem mem_collapseHyphens :
    ∀ (l : List Char) (c : Char), c ∈ collapseHyphens l → c ∈ l
  | [], c, h => by simpa [collapseHyphens] using h
  | [x], c, h => by simpa [collapseHyphens] using h
  | a :: b :: rest, c, h => by
    rw [collapseHyphens] at h
    split at h
    · exact List.mem_cons_of_mem a (mem_collapseHyphens (b :: rest) c h)
    · rcases List.mem_cons.mp h with h | h
      · exact h ▸ List.mem_cons_self a (b :: rest)
      · exact List.mem_cons_of_mem a (mem_collapseHyphens (b :: rest) c h)

theorem count_collapseHyphens (a : Char) (ha : a ≠ '-') :
    ∀ (l : List Char), (collapseHyphens l).count a = l.count a
  | [] => rfl
  | [c] => rfl
  | x :: y :: rest => by
    rw [collapseHyphens]
    split
    · rename_i h
      have hx : ¬ (x = a) := fun hEq => ha (hEq.symm.trans h.1)
      simp [count_collapseHyphens a ha (y :: rest), List.count_cons, hx]
    · simp [count_collapseHyphens a ha (y :: rest), List.count_cons]

theorem head?_dropWhile_not (p : Char → Bool) :
    ∀ (l : List Char) (c : Char), (l.dropWhile p).head? = some c → p c = false
  | [], c, h => by cases h
  | a :: l, c, h => by
    rw [List.dropWhile_cons] at h
    split at h
    · exact head?_dropWhile_not p l c h
    · rename_i hpa
      rw [List.head?_cons, Option.some.injEq] at h
      rw [← h]
      simpa using hpa

theorem getLast?_dropWhile (p : Char → Bool) :
    ∀ (l : List Char), l.dropWhile p ≠ [] → (l.dropWhile p).getLast? = l.getLast?
  | [], h => by simp at h
  | a :: l, h => by
    rw [List.dropWhile_cons] at h ⊢
    by_cases hpa : p a
    · rw [if_pos hpa] at h ⊢
      have hl : l ≠ [] := by
        intro hnil
        rw [hnil] at h
        simp at h
      rw [getLast?_dropWhile p l h]
      cases l with
      | nil => exact absurd rfl hl
      | cons b l2 => rw [List.getLast?_cons_cons]
    · rw [if_neg hpa]

theorem count_dropWhile (p : Char → Bool) (a : Char) (ha : p a = false) :
    ∀ (l : List Char), (l.dropWhile p).count a = l.count a
  | [] => rfl
  | b :: l => by
    rw [List.dropWhile_cons]
    by_cases hpb : p b
    · rw [if_pos hpb, count_dropWhile p a ha l, List.count_cons]
      have : ¬ (b = a) := by
        intro hEq
        rw [hEq, ha] at hpb
        cases hpb
      simp [this]
    · rw [if_neg hpb]

theorem mem_dropWhile (p : Char → Bool) (l : List Char) (c : Char)
    (h : c ∈ l.dropWhile p) : c ∈ l :=
  (List.dropWhile_suffix p).subset h

theorem mem_stripEnds (p : Char → Bool) (l : List Char) (c : Char)
    (h : c ∈ stripEnds p l) : c ∈ l := by
  unfold stripEnds at h
  rw [List.mem_reverse] at h
  have h2 := mem_dropWhile p _ c h
  rw [List.mem_reverse] at h2
  exact mem_dropWhile p _ c h2

theorem count_stripEnds (p : Char → Bool) (a : Char) (ha : p a = false) (l : List Char) :
    (stripEnds p l).count a = l.count a := by
  unfold stripEnds
  rw [List.count_reverse, count_dropWhile p a ha, List.count_reverse,
    count_dropWhile p a ha]

theorem chain'_stripEnds (p : Char → Bool) (R : Char → Char → Prop)
    (l : List Char) (h : l.Chain' R) : (stripEnds p l).Chain' R := by
  unfold stripEnds
  rw [List.chain'_reverse]
  have h1 : (l.dropWhile p).Chain' R := h.suffix (List.dropWhile_suffix p)
  have h2 : ((l.dropWhile p).reverse).Chain' (flip R) := by
    rw [List.chain'_reverse]
    exact h1.imp (fun a b hab => hab)
  exact h2.suffix (List.dropWhile_suffix p)

theorem stripEnds_getLast? (p : Char → Bool) (l : List Char) (c : Char)
    (h : (stripEnds p l).getLast? = some c) : p c = false := by
  unfold stripEnds at h
  rw [List.getLast?_reverse] at h
  exact head?_dropWhile_not p _ c h

theorem stripEnds_head? (p : Char → Bool) (l : List Char) (c : Char)
    (h : (stripEnds p l).head? = some c) : p c = false := by
  unfold stripEnds at h
  rw [List.head?_reverse] at h
  set w := (l.dropWhile p).reverse with hw
  by_cases hne : w.dropWhile p = []
  · rw [hne] at h
    cases h
  · rw [getLast?_dropWhile p w hne, hw, List.getLast?_reverse] at h
    exact head?_dropWhile_not p _ c h

/-- Every character surviving sanitization lies in the kept class
(lowercase letters, digits, hyphen, slash). -/
theorem sanitizeChars_kept (cs : List Char) (c : Char) (h : c ∈ sanitizeChars cs) :
    keptChar c = true := by
  unfold sanitizeChars at h
  split at h
  · cases h
  · have h1 := mem_stripEnds _ _ _ h
    have h2 := mem_collapseHyphens _ _ h1
    exact List.of_mem_filter h2

/-- Sanitization leaves no two adjacent hyphens. -/
theorem sanitizeChars_no_hyphen_run (cs : List Char) :
    (sanitizeChars cs).Chain' (fun a b => ¬ (a = '-' ∧ b = '-')) := by
  unfold sanitizeChars
  split
  · simp
  · exact chain'_stripEnds _ _ _ (collapseHyphens_chain _)

/-- Sanitization trims hyphens from both ends. -/
theorem sanitizeChars_no_outer_hyphen (cs : List Char) :
    (sanitizeChars cs).head? ≠ some '-' ∧ (sanitizeChars cs).getLast? ≠ some '-' := by
  unfold sanitizeChars
  split
  · simp
  · constructor
    · intro h
      have := stripEnds_head? _ _ _ h
      simp at this
    · intro h
      have := stripEnds_getLast? _ _ _ h
      simp at this

/-- Sanitization preserves every slash. -/
theorem sanitizeChars_count_slash (cs : List Char) :
    (sanitizeChars cs).count '/' = cs.count '/' := by
  unfold sanitizeChars
  split
  · rename_i h
    rw [h]
  · rw [count_stripEnds _ _ (by decide), count_collapseHyphens _ (by decide)]
    rw [List.count_filter (by decide)]
    show ((cs.map lowerChar).map spaceUnderscoreToHyphen).count '/' = cs.count '/'
    unfold List.count
    rw [List.countP_map, List.countP_map]
    apply List.countP_congr
    intro c _
    show (spaceUnderscoreToHyphen (lowerChar c) == '/') = true ↔ (c == '/') = true
    rw [beq_iff_eq, beq_iff_eq, spaceUnderscore_slash, lowerChar_slash]

/-- C9: sanitization lowercases into the kept class `a-z0-9`, hyphen and
slash (spaces/underscores having become hyphens), collapses hyphen runs,
trims outer hyphens while preserving every slash — each component being
sanitized individually before substitution — and on the spec's example
renders exactly `feature/20240115_testuser_fix-login-bug`. -/
theorem generate_branch_name_sanitizes_and_example :
    (∀ cs : List Char,
      (∀ c ∈ sanitizeChars cs, keptChar c = true) ∧
      (sanitizeChars cs).Chain' (fun a b => ¬ (a = '-' ∧ b = '-')) ∧
      (sanitizeChars cs).head? ≠ some '-' ∧
      (sanitizeChars cs).getLast? ≠ some '-' ∧
      (sanitizeChars cs).count '/' = cs.count '/') ∧
    sanitize_branch_component "Fix Login Bug" = "fix-login-bug" ∧
    sanitize_branch_component "feature/" = "feature/" ∧
    generate_branch_name "Fix Login Bug" "feature/"
      "\x7bprefix\x7d{date}_{username}_{description}" "20240115" "testuser" =
      .ok "feature/20240115_testuser_fix-login-bug" :=
  ⟨fun cs =>
    ⟨fun c h => sanitizeChars_kept cs c h,
     sanitizeChars_no_hyphen_run cs,
     (sanitizeChars_no_outer_hyphen cs).1,
     (sanitizeChars_no_outer_hyphen cs).2,
     sanitizeChars_count_slash cs⟩,
   rfl, rfl, rfl⟩

/-- Witness for C9: the kept-class clause applied at a concrete input. -/
theorem generate_branch_name_sanitizes_and_example_witness :
    keptChar 'f' = true :=
  ((generate_branch_name_sanitizes_and_example.1 "Fix".data).1 'f' (by decide))

/-! ### Claim C8 -/

theorem mem_of_getLast?_eq {α : Type} (l : List α) (x : α)
    (h : l.getLast? = some x) : x ∈ l := by
  induction l with
  | nil => cases h
  | cons a l ih =>
    cases l with
    | nil =>
      rw [List.getLast?_singleton] at h
      rw [Option.some.inj h]
      exact List.mem_singleton_self x
    | cons b l2 =>
      rw [List.getLast?_cons_cons] at h
      exact List.mem_cons_of_mem a (ih h)

set_option maxHeartbeats 2000000 in
/-- Counterexample to C8 as stated: `"a-"` raises (the validator also
rejects names ending in a hyphen, from the `r"-$"` pattern), but violates
none of the rules the claim lists; moreover on `"a-\n"` the raised
failure is the trailing-hyphen one although the name does not end with a
hyphen (Python's `$` also matches just before one trailing newline), so
the failure does not identify a rule the name violates. -/
theorem validate_branch_name_claim_counterexample :
    (¬ (((validate_branch_name "a-").isOk = false) ↔
        ∃ r ∈ claimedRules, violates r "a-" = true)) ∧
    validate_branch_name "a-\n" = .error .endHyphen ∧
    violates .endHyphen "a-\n" = false := by
  refine ⟨by decide, rfl, by decide⟩

set_option maxHeartbeats 2000000 in
/-- C8 (amended): `validate_branch_name` raises iff the name violates one
of the listed rules **or ends with a hyphen** (the `r"-$"` check the
claim's list omits), and the raised failure names a rule the name indeed
violates — except that, `$` in Python also matching just before one
trailing newline, the trailing-hyphen (resp. trailing-slash) failure is
additionally raised for names ending `"-\n"` (resp. `"/\n"`), which do
not end with that character. -/
theorem validate_branch_name_characterization (name : String) :
    (((validate_branch_name name).isOk = false) ↔ ∃ r, violates r name = true) ∧
    (∀ r, validate_branch_name name = .error r →
      violates r name = true ∨
      (r = .endHyphen ∧ name.data.getLast? = some '\n'
        ∧ name.data.dropLast.getLast? = some '-') ∨
      (r = .endSlash ∧ name.data.getLast? = some '\n'
        ∧ name.data.dropLast.getLast? = some '/')) := by
  have hempty : (name.data = []) ↔ (name = "") := by
    constructor
    · intro h
      exact String.ext h
    · intro h
      rw [h]
  unfold validate_branch_name
  by_cases h1 : name.data = []
  · rw [if_pos h1]
    refine ⟨⟨fun _ => ⟨.empty, (by simp [violates, hempty.mp h1])⟩, fun _ => rfl⟩, fun r hr => ?_⟩
    cases hr
    exact Or.inl (by simp [violates, hempty.mp h1])
  · rw [if_neg h1]
    by_cases h2 : name.data.head? = some '-'
    · rw [if_pos h2]
      refine ⟨⟨fun _ => ⟨.startHyphen, (by simp [violates, h2])⟩, fun _ => rfl⟩, fun r hr => ?_⟩
      cases hr
      exact Or.inl (by simp [violates, h2])
    · rw [if_neg h2]
      by_cases h3 : searchEnd '-' name.data = true
      · rw [if_pos h3]
        have h3p : name.data.getLast? = some '-' ∨
            (name.data.getLast? = some '\n' ∧ name.data.dropLast.getLast? = some '-') := by
          simpa [searchEnd] using h3
        refine ⟨⟨fun _ => ?_, fun _ => rfl⟩, fun r hr => ?_⟩
        · rcases h3p with h | h
          · exact ⟨.endHyphen, by simp [violates, h]⟩
          · refine ⟨.controlChar, ?_⟩
            have hmem : '\n' ∈ name.data := mem_of_getLast?_eq name.data '\n' h.1
            simp only [violates, List.any_eq_true]
            exact ⟨'\n', hmem, by decide⟩
        · cases hr
          rcases h3p with h | h
          · exact Or.inl (by simp [violates, h])
          · exact Or.inr (Or.inl ⟨rfl, h.1, h.2⟩)
      · rw [if_neg h3]
        by_cases h4 : hasSub2 '.' '.' name.data = true
        · rw [if_pos h4]
          refine ⟨⟨fun _ => ⟨.doubleDot, (by simpa [violates] using h4)⟩, fun _ => rfl⟩, fun r hr => ?_⟩
          cases hr
          exact Or.inl (by simpa [violates] using h4)
        · rw [if_neg h4]
          by_cases h5 : name.data.head? = some '/'
          · rw [if_pos h5]
            refine ⟨⟨fun _ => ⟨.startSlash, (by simp [violates, h5])⟩, fun _ => rfl⟩, fun r hr => ?_⟩
            cases hr
            exact Or.inl (by simp [violates, h5])
          · rw [if_neg h5]
            by_cases h6 : searchEnd '/' name.data = true
            · rw [if_pos h6]
              have h6p : name.data.getLast? = some '/' ∨
                  (name.data.getLast? = some '\n' ∧ name.data.dropLast.getLast? = some '/') := by
                simpa [searchEnd] using h6
              refine ⟨⟨fun _ => ?_, fun _ => rfl⟩, fun r hr => ?_⟩
              · rcases h6p with h | h
                · exact ⟨.endSlash, by simp [violates, h]⟩
                · refine ⟨.controlChar, ?_⟩
                  have hmem : '\n' ∈ name.data := mem_of_getLast?_eq name.data '\n' h.1
                  simp only [violates, List.any_eq_true]
                  exact ⟨'\n', hmem, by decide⟩
              · cases hr
                rcases h6p with h | h
                · exact Or.inl (by simp [violates, h])
                · exact Or.inr (Or.inr ⟨rfl, h.1, h.2⟩)
            · rw [if_neg h6]
              by_cases h7 : hasSub2 '/' '/' name.data = true
              · rw [if_pos h7]
                refine ⟨⟨fun _ => ⟨.doubleSlash, (by simpa [violates] using h7)⟩, fun _ => rfl⟩, fun r hr => ?_⟩
                cases hr
                exact Or.inl (by simpa [violates] using h7)
              · rw [if_neg h7]
                by_cases h8 : hasSub2 '@' '{' name.data = true
                · rw [if_pos h8]
                  refine ⟨⟨fun _ => ⟨.atBrace, (by simpa [violates] using h8)⟩, fun _ => rfl⟩, fun r hr => ?_⟩
                  cases hr
                  exact Or.inl (by simpa [violates] using h8)
                · rw [if_neg h8]
                  by_cases h9 : name.data.any isControl = true
                  · rw [if_pos h9]
                    refine ⟨⟨fun _ => ⟨.controlChar, (by simpa [violates] using h9)⟩, fun _ => rfl⟩, fun r hr => ?_⟩
                    cases hr
                    exact Or.inl (by simpa [violates] using h9)
                  · rw [if_neg h9]
                    by_cases h10 : name.data.any isSpecial = true
                    · rw [if_pos h10]
                      refine ⟨⟨fun _ => ⟨.specialChar, (by simpa [violates] using h10)⟩, fun _ => rfl⟩, fun r hr => ?_⟩
                      cases hr
                      exact Or.inl (by simpa [violates] using h10)
                    · rw [if_neg h10]
                      by_cases h11 : name = "@" ∨ name = "."
                      · rw [if_pos h11]
                        refine ⟨⟨fun _ => ⟨.reservedName, (by simp [violates, h11])⟩, fun _ => rfl⟩, fun r hr => ?_⟩
                        cases hr
                        exact Or.inl (by simp [violates, h11])
                      · rw [if_neg h11]
                        by_cases h12 : (name.data.splitOn '/').any (fun part => part.head? = some '.') = true
                        · rw [if_pos h12]
                          refine ⟨⟨fun _ => ⟨.componentDot, (by simpa [violates] using h12)⟩, fun _ => rfl⟩, fun r hr => ?_⟩
                          cases hr
                          exact Or.inl (by simpa [violates] using h12)
                        · rw [if_neg h12]
                          constructor
                          · constructor
                            · intro hfalse
                              exact absurd hfalse (by decide)
                            · rintro ⟨r, hr⟩
                              exfalso
                              cases r
                              · exact h1 (hempty.mpr (by simpa [violates] using hr))
                              · exact h2 (by simpa [violates] using hr)
                              · refine h3 ?_
                                have hlast : name.data.getLast? = some '-' := by
                                  simpa [violates] using hr
                                simp [searchEnd, hlast]
                              · exact h4 (by simpa [violates] using hr)
                              · exact h5 (by simpa [violates] using hr)
                              · refine h6 ?_
                                have hlast : name.data.getLast? = some '/' := by
                                  simpa [violates] using hr
                                simp [searchEnd, hlast]
                              · exact h7 (by simpa [violates] using hr)
                              · exact h8 (by simpa [violates] using hr)
                              · exact h9 (by simpa [violates] using hr)
                              · exact h10 (by simpa [violates] using hr)
                              · exact h11 (by simpa [violates] using hr)
                              · exact h12 (by simpa [violates] using hr)
                          · intro r hr
                            cases hr

/-- Witness for C8 (amended): the validator rejects `"a-"` with the
trailing-hyphen rule, which `"a-"` indeed violates. -/
theorem validate_branch_name_characterization_witness :
    violates NameRule.endHyphen "a-" = true := by
  rcases (validate_branch_name_characterization "a-").2 .endHyphen rfl with h | h | h
  · exact h
  · exact absurd h.2.1 (by decide)
  · exact absurd h.1 (by decide)

end BranchName

/-! ### Claim C7 -/

/-- Counterexample to C7 as stated: loading `exStaleRecord` (whose `main`
record's persisted children list names the absent branch `ghost`) keeps
that stale list verbatim — the loaded stack's children sets are neither
rebuilt from `parent` fields nor validated. -/
theorem from_dict_children_not_reconciled :
    ¬ Stack.childrenConsistent (Stack.from_dict exStaleRecord 9) := by
  intro h
  have hmem : ("main", Branch.from_dict
      { name := "main", children := some ["ghost"],
        created_at := some 1, updated_at := some 1 } 9) ∈
      (Stack.from_dict exStaleRecord 9).branches := by
    simp [Stack.from_dict, exStaleRecord]
  have hghost := (h _ hmem "ghost").mp (by decide)
  rcases hghost with ⟨c, hc, _⟩
  cases hc

/-- C7 (amended): `from_dict` followed by `to_dict` reproduces the
snapshot's branch set and parent links exactly, but the loaded `children`
sets are copied verbatim from the snapshot (defaulting to empty when the
key is absent) — they are not rebuilt from, or validated against, the
`parent` fields. -/
theorem from_dict_to_dict_roundtrip (d : StackRecord) (t : Nat) :
    (((Stack.from_dict d t).to_dict).branches.map Prod.fst = d.branches.map Prod.fst) ∧
    (((Stack.from_dict d t).to_dict).branches.map (fun p => p.2.parent) =
      d.branches.map (fun p => p.2.parent)) ∧
    ((Stack.from_dict d t).branches.map (fun p => p.2.children) =
      d.branches.map (fun p => p.2.children.getD [])) :=
  ⟨by simp [Stack.from_dict, Stack.to_dict, Branch.from_dict, Branch.to_dict],
   by simp [Stack.from_dict, Stack.to_dict, Branch.from_dict, Branch.to_dict],
   by simp [Stack.from_dict, Branch.from_dict]⟩


/-! ### Claim C6 -/

namespace Stack

theorem lookup_filterNe (l : List (String × Branch)) (name : String)
    (tr : String) (c u : Nat) (k : String) :
    (Stack.mk (l.filter (fun p => p.1 ≠ name)) tr c u).lookup k =
      if k = name then none else (Stack.mk l tr c u).lookup k := by
  induction l with
  | nil =>
    rw [List.filter_nil, lookup_nil]
    split <;> rfl
  | cons q l ih =>
    rw [List.filter_cons]
    by_cases hq : q.1 = name
    · have h1 : (decide (q.1 ≠ name)) = false := by simp [hq]
      rw [h1]
      simp only [Bool.false_eq_true, if_false]
      rw [ih, lookup_cons]
      by_cases hk : k = name
      · rw [if_pos hk, if_pos hk]
      · rw [if_neg hk, if_neg hk, if_neg (fun (h : q.1 = k) => hk (h ▸ hq))]
    · have h1 : (decide (q.1 ≠ name)) = true := by simp [hq]
      rw [h1]
      simp only [if_true]
      rw [lookup_cons, lookup_cons]
      by_cases hqk : q.1 = k
      · rw [if_pos hqk, if_pos hqk, if_neg (fun (h : k = name) => hq (hqk.trans h))]
      · rw [if_neg hqk, if_neg hqk, ih]

theorem keys_filterNe (l : List (String × Branch)) (name : String)
    (tr : String) (c u : Nat) :
    (Stack.mk (l.filter (fun p => p.1 ≠ name)) tr c u).keys =
      (Stack.mk l tr c u).keys.filter (fun k => k ≠ name) := by
  simp only [keys]
  induction l with
  | nil => rfl
  | cons q l ih =>
    rw [List.filter_cons, List.map_cons, List.filter_cons]
    by_cases hq : q.1 = name
    · have h1 : (decide (q.1 ≠ name)) = false := by simp [hq]
      rw [h1]
      simp only [Bool.false_eq_true, if_false]
      exact ih
    · have h1 : (decide (q.1 ≠ name)) = true := by simp [hq]
      rw [h1]
      simp only [if_true]
      rw [List.map_cons, ih]

theorem mem_keys_iff (s : Stack) (k : String) :
    k ∈ s.keys ↔ ∃ b, s.lookup k = some b := by
  rcases s with ⟨l, tr, c, u⟩
  induction l with
  | nil =>
    rw [lookup_nil]
    simp [keys]
  | cons q l ih =>
    rw [lookup_cons]
    by_cases hq : q.1 = k
    · rw [if_pos hq]
      simp [keys, hq.symm]
    · rw [if_neg hq]
      simp only [keys, List.map_cons, List.mem_cons] at ih ⊢
      constructor
      · rintro (h | h)
        · exact absurd h.symm hq
        · exact ih.mp h
      · intro h
        exact Or.inr (ih.mpr h)

end Stack

namespace Stack

theorem lookup_rebuild (x : Stack) (tr : String) (c u : Nat) (k : String) :
    (Stack.mk x.branches tr c u).lookup k = x.lookup k := rfl

theorem keys_rebuild (x : Stack) (tr : String) (c u : Nat) :
    (Stack.mk x.branches tr c u).keys = x.keys := rfl

theorem add_branch_some_ok (s : Stack) (name p : String) (t : Nat)
    (hfresh : s.hasKey name = false) (hp : p ≠ "") (hkeyp : s.hasKey p = true) :
    s.add_branch name (some p) t =
      .ok ((Stack.mk (s.branches ++
              [(name, { name := name, parent := some p, created_at := t, updated_at := t })])
              s.trunk s.created_at t).updateAt p (fun b => b.add_child name t),
           { name := name, parent := some p, created_at := t, updated_at := t }) := by
  have htruthy : parentTruthy (some p) = true := by simp [parentTruthy, hp]
  have hkey1a : (Stack.mk (s.branches ++
      [(name, { name := name, parent := some p, created_at := t, updated_at := t })])
      s.trunk s.created_at t).hasKey p = true := by
    rw [hasKey_eq_true_iff]
    rcases (hasKey_eq_true_iff s p).mp hkeyp with ⟨pb, hpb⟩
    refine ⟨pb, ?_⟩
    rw [lookup_append_branch,
      show (Stack.mk s.branches s.trunk s.created_at t).lookup p = s.lookup p from rfl, hpb]
  simp only [Stack.add_branch]
  rw [if_neg (show ¬ (s.hasKey name = true) by rw [hfresh]; simp)]
  rw [if_neg (show ¬ (parentTruthy (some p) = true ∧ ¬ s.hasKey ((some p).getD "") = true)
        from fun hc => hc.2 hkeyp)]
  rw [if_pos (show parentTruthy (some p) = true ∧
      (Stack.mk (s.branches ++
        [(name, { name := name, parent := some p, created_at := t, updated_at := t })])
        s.trunk s.created_at t).hasKey ((some p).getD "") = true from ⟨htruthy, hkey1a⟩)]
  rfl

theorem add_branch_none_ok (s : Stack) (name : String) (t : Nat)
    (hfresh : s.hasKey name = false) :
    s.add_branch name none t =
      .ok (Stack.mk (s.branches ++
              [(name, { name := name, parent := none, created_at := t, updated_at := t })])
              s.trunk s.created_at t,
           { name := name, parent := none, created_at := t, updated_at := t }) := by
  simp only [Stack.add_branch]
  rw [if_neg (show ¬ (s.hasKey name = true) by rw [hfresh]; simp)]
  rw [if_neg (show ¬ (parentTruthy none = true ∧ ¬ s.hasKey ((none : Option String).getD "") = true)
        from fun hc => by simp [parentTruthy] at hc)]
  rw [if_neg (show ¬ (parentTruthy none = true ∧
      (Stack.mk (s.branches ++
        [(name, { name := name, parent := none, created_at := t, updated_at := t })])
        s.trunk s.created_at t).hasKey ((none : Option String).getD "") = true)
        from fun hc => by simp [parentTruthy] at hc)]

theorem remove_branch_some_ok (s : Stack) (name p : String) (t : Nat) (b : Branch)
    (hlook : s.lookup name = some b) (hnochild : b.children = [])
    (hbp : b.parent = some p) (hp : p ≠ "") (hkeyp : s.hasKey p = true) :
    s.remove_branch name t =
      .ok (Stack.mk ((s.updateAt p (fun x => x.remove_child name t)).branches.filter
              (fun q => q.1 ≠ name)) s.trunk s.created_at t) := by
  simp only [Stack.remove_branch, hlook]
  rw [if_neg (show ¬ ¬ (b.children = []) from fun hc => hc hnochild)]
  rw [if_pos (show parentTruthy b.parent = true ∧ s.hasKey (b.parent.getD "") = true from
        ⟨by rw [hbp]; simp [parentTruthy, hp], by rw [hbp]; exact hkeyp⟩)]
  rw [hbp]
  rfl

theorem remove_branch_plain_ok (s : Stack) (name : String) (t : Nat) (b : Branch)
    (hlook : s.lookup name = some b) (hnochild : b.children = [])
    (hcond : ¬ (parentTruthy b.parent = true ∧ s.hasKey (b.parent.getD "") = true)) :
    s.remove_branch name t =
      .ok (Stack.mk (s.branches.filter (fun q => q.1 ≠ name)) s.trunk s.created_at t) := by
  simp only [Stack.remove_branch, hlook]
  rw [if_neg (show ¬ ¬ (b.children = []) from fun hc => hc hnochild)]
  rw [if_neg hcond]

theorem add_branch_ok_inversion (s s' : Stack) (br : Branch) (name : String)
    (parent : Option String) (t : Nat)
    (h : s.add_branch name parent t = .ok (s', br)) :
    s.hasKey name = false ∧
    br = { name := name, parent := parent, created_at := t, updated_at := t } ∧
    ((∃ p, parent = some p ∧ p ≠ "" ∧ s.hasKey p = true ∧
        s' = (Stack.mk (s.branches ++ [(name, br)]) s.trunk s.created_at t).updateAt
              p (fun b => b.add_child name t)) ∨
     (parentTruthy parent = false ∧
        s' = Stack.mk (s.branches ++ [(name, br)]) s.trunk s.created_at t)) := by
  unfold Stack.add_branch at h
  split at h
  · cases h
  · split at h
    · cases h
    · rename_i hA hB
      simp only [Except.ok.injEq, Prod.mk.injEq] at h
      obtain ⟨hs', hbr⟩ := h
      refine ⟨by simpa using hA, hbr.symm, ?_⟩
      by_cases htruthy : parentTruthy parent = true
      · rcases (parentTruthy_iff parent).mp htruthy with ⟨p, hpeq, hpne⟩
        have hkeyp : s.hasKey (parent.getD "") = true := by
          by_contra hc
          exact hB ⟨htruthy, by simpa using hc⟩
        left
        refine ⟨p, hpeq, hpne, by rwa [hpeq] at hkeyp, ?_⟩
        rw [← hs', ← hbr]
        have hgd : parent.getD "" = p := by rw [hpeq]; rfl
        rw [if_pos ?hc3]
        case hc3 =>
          constructor
          · exact htruthy
          · rw [hasKey_eq_true_iff] at hkeyp ⊢
            rcases hkeyp with ⟨pb, hpb⟩
            refine ⟨pb, ?_⟩
            rw [lookup_append_branch]
            rw [show (Stack.mk s.branches s.trunk s.created_at t).lookup (parent.getD "") =
              s.lookup (parent.getD "") from rfl, hpb]
        rw [hgd]
      · right
        refine ⟨by simpa using htruthy, ?_⟩
        rw [← hs', ← hbr]
        rw [if_neg (fun hc => htruthy hc.1)]

theorem remove_branch_ok_inversion (s s' : Stack) (name : String) (t : Nat)
    (h : s.remove_branch name t = .ok s') :
    ∃ b, s.lookup name = some b ∧ b.children = [] ∧
    ((parentTruthy b.parent = true ∧ s.hasKey (b.parent.getD "") = true ∧
        s' = Stack.mk ((s.updateAt (b.parent.getD "")
              (fun x => x.remove_child name t)).branches.filter
              (fun q => q.1 ≠ name)) s.trunk s.created_at t) ∨
     (¬ (parentTruthy b.parent = true ∧ s.hasKey (b.parent.getD "") = true) ∧
        s' = Stack.mk (s.branches.filter (fun q => q.1 ≠ name)) s.trunk s.created_at t)) := by
  unfold Stack.remove_branch at h
  split at h
  · cases h
  · rename_i b hlook
    split at h
    · cases h
    · rename_i hnochild
      simp only [Except.ok.injEq] at h
      refine ⟨b, hlook, by simpa using hnochild, ?_⟩
      by_cases hcond : parentTruthy b.parent = true ∧ s.hasKey (b.parent.getD "") = true
      · left
        refine ⟨hcond.1, hcond.2, ?_⟩
        rw [← h, if_pos hcond]
        rfl
      · right
        refine ⟨hcond, ?_⟩
        rw [← h, if_neg hcond]

end Stack

/-- Counterexample to C6 as stated: on the tampered stack `exStale`
(where `p` already lists the absent name `x` among its children), a
successful `add_branch("x", "p")` followed by `remove_branch("x")` does
not restore `p`'s children set — the set `add` was a no-op, the removal's
`discard` then deletes the pre-existing member. -/
theorem add_remove_not_restoring :
    ¬ (∀ s1 br s2, exStale.add_branch "x" (some "p") 1 = .ok (s1, br) →
        s1.remove_branch "x" 2 = .ok s2 →
        s2.branches = exStale.branches) := by
  intro h
  have hres := h _ _ _ rfl rfl
  exact absurd hres (by decide)

/-- C6 (amended): when the fresh `name` is *not* already a member of the
parent's children set (which always holds on a valid stack), a successful
`add_branch(name, parent)` followed immediately by `remove_branch(name)`
restores the key list and every entry exactly, except that the parent
branch's `updated_at` (and the stack's `updated_at`) show the removal
clock — the set mutations themselves round-trip exactly. -/
theorem add_then_remove_restores (s : Stack) (name p : String) (t1 t2 : Nat)
    (hfresh : s.hasKey name = false) (hp : p ≠ "")
    (pb : Branch) (hpb : s.lookup p = some pb) (hnotchild : name ∉ pb.children) :
    ∃ br s1 s2, s.add_branch name (some p) t1 = .ok (s1, br) ∧
      s1.remove_branch name t2 = .ok s2 ∧
      s2.keys = s.keys ∧
      (∀ k, k ≠ p → s2.lookup k = s.lookup k) ∧
      s2.lookup p = some { pb with updated_at := t2 } ∧
      s2.updated_at = t2 := by
  have hAn : s.lookup name = none := (Stack.hasKey_eq_false_iff s name).mp hfresh
  have hkeyp : s.hasKey p = true := (Stack.hasKey_eq_true_iff s p).mpr ⟨pb, hpb⟩
  have hpname : p ≠ name := by
    intro h
    rw [h, hAn] at hpb
    cases hpb
  obtain hadd := Stack.add_branch_some_ok s name p t1 hfresh hp hkeyp
  generalize hs1 : ((Stack.mk (s.branches ++
      [(name, { name := name, parent := some p, created_at := t1, updated_at := t1 })])
      s.trunk s.created_at t1).updateAt p (fun b => b.add_child name t1)) = s1 at hadd
  have hl_name : s1.lookup name =
      some { name := name, parent := some p, created_at := t1, updated_at := t1 } := by
    rw [← hs1, Stack.lookup_updateAt, if_neg (fun h => hpname h.symm),
      Stack.lookup_append_branch,
      show (Stack.mk s.branches s.trunk s.created_at t1).lookup name = s.lookup name from rfl,
      hAn]
    simp
  have hl_p : s1.lookup p = some (pb.add_child name t1) := by
    rw [← hs1, Stack.lookup_updateAt, if_pos rfl,
      Stack.lookup_append_branch,
      show (Stack.mk s.branches s.trunk s.created_at t1).lookup p = s.lookup p from rfl,
      hpb]
    rfl
  have hkey1p : s1.hasKey p = true :=
    (Stack.hasKey_eq_true_iff s1 p).mpr ⟨pb.add_child name t1, hl_p⟩
  obtain hrem := Stack.remove_branch_some_ok s1 name p t2 _ hl_name rfl rfl hp hkey1p
  refine ⟨_, s1, _, hadd, hrem, ?_, ?_, ?_, rfl⟩
  · -- keys restored
    rw [Stack.keys_filterNe,
      show (Stack.mk (s1.updateAt p (fun x => x.remove_child name t2)).branches
        s1.trunk s1.created_at t2).keys =
        (s1.updateAt p (fun x => x.remove_child name t2)).keys from rfl,
      Stack.keys_updateAt, ← hs1, Stack.keys_updateAt, Stack.keys_append',
      List.filter_append]
    have hnk : name ∉ s.keys := by
      intro hmem
      rcases (Stack.mem_keys_iff s name).mp hmem with ⟨b, hb⟩
      rw [hAn] at hb
      cases hb
    have h1 : s.keys.filter (fun k => decide (k ≠ name)) = s.keys :=
      List.filter_eq_self.mpr (fun a ha => by
        simp only [decide_eq_true_eq]
        exact fun hEq => hnk (hEq ▸ ha))
    have h2 : ([name].filter (fun k => decide (k ≠ name))) = [] := by simp
    rw [h1, h2, List.append_nil]
  · -- frame: every key other than p unchanged
    intro k hkp
    rw [Stack.lookup_filterNe]
    by_cases hkn : k = name
    · rw [if_pos hkn, hkn, hAn]
    · rw [if_neg hkn,
        show (Stack.mk (s1.updateAt p (fun x => x.remove_child name t2)).branches
          s1.trunk s1.created_at t2).lookup k =
          (s1.updateAt p (fun x => x.remove_child name t2)).lookup k from rfl,
        Stack.lookup_updateAt, if_neg hkp, ← hs1, Stack.lookup_updateAt, if_neg hkp,
        Stack.lookup_append_branch,
        show (Stack.mk s.branches s.trunk s.created_at t1).lookup k = s.lookup k from rfl]
      cases hv : s.lookup k with
      | some b => rfl
      | none => rw [if_neg (fun h => hkn h.symm)]
  · -- parent restored up to updated_at
    rw [Stack.lookup_filterNe, if_neg hpname,
      show (Stack.mk (s1.updateAt p (fun x => x.remove_child name t2)).branches
        s1.trunk s1.created_at t2).lookup p =
        (s1.updateAt p (fun x => x.remove_child name t2)).lookup p from rfl,
      Stack.lookup_updateAt, if_pos rfl, hl_p]
    have hroundtrip : (pb.add_child name t1).remove_child name t2 =
        { pb with updated_at := t2 } := by
      unfold Branch.add_child Branch.remove_child
      rw [if_neg hnotchild]
      have hfilter : (pb.children ++ [name]).filter (fun c => c ≠ name) = pb.children := by
        rw [List.filter_append]
        have h1 : pb.children.filter (fun c => decide (c ≠ name)) = pb.children :=
          List.filter_eq_self.mpr (fun a ha => by
            simp only [decide_eq_true_eq]
            exact fun hEq => hnotchild (hEq ▸ ha))
        have h2 : ([name].filter (fun c => decide (c ≠ name))) = [] := by simp
        rw [h1, h2, List.append_nil]
      simp only [hfilter]
    rw [show (Option.map (fun x => x.remove_child name t2) (some (pb.add_child name t1))) =
      some ((pb.add_child name t1).remove_child name t2) from rfl, hroundtrip]


/-- Witness for C6 (amended): on `exMain`, adding `feature` under `main`
at clock 5 and removing it at clock 6 restores the key list, every other
entry, and `main`'s children set, with only `updated_at` advanced. -/
theorem add_then_remove_restores_witness :
    ∃ br s1 s2, exMain.add_branch "feature" (some "main") 5 = .ok (s1, br) ∧
      s1.remove_branch "feature" 6 = .ok s2 ∧
      s2.keys = exMain.keys ∧
      (∀ k, k ≠ "main" → s2.lookup k = exMain.lookup k) ∧
      s2.lookup "main" = some { name := "main", created_at := 1, updated_at := 6 } ∧
      s2.updated_at = 6 :=
  add_then_remove_restores exMain "feature" "main" 5 6 rfl (by decide)
    { name := "main", created_at := 1, updated_at := 1 } rfl (by decide)


/-! ### Claim C1: invariant machinery -/

namespace Stack

theorem terminatesWithin_mono (s : Stack) :
    ∀ (m n : Nat), m ≤ n → ∀ (b : Branch),
      terminatesWithin s m b = true → terminatesWithin s n b = true := by
  intro m
  induction m with
  | zero =>
    intro n _ b hb
    rw [terminatesWithin] at hb
    cases n with
    | zero => rw [terminatesWithin]; exact hb
    | succ n =>
      rw [terminatesWithin]
      cases hbp : b.parent with
      | none => simp
      | some p =>
        rw [hbp] at hb
        simp at hb
  | succ m ih =>
    intro n hmn b hb
    cases n with
    | zero => omega
    | succ n =>
      rw [terminatesWithin] at hb ⊢
      cases hbp : b.parent with
      | none => simp
      | some p =>
        simp only [hbp] at hb ⊢
        cases hlk : s.lookup p with
        | none =>
          simp only [hlk] at hb
          exact absurd hb (by decide)
        | some pb =>
          simp only [hlk] at hb ⊢
          exact ih n (by omega) pb hb

theorem mem_of_lookup (s : Stack) (n : String) (b : Branch)
    (h : s.lookup n = some b) : (n, b) ∈ s.branches := by
  unfold lookup at h
  cases hf : s.branches.find? (fun p => p.1 = n) with
  | none => rw [hf] at h; cases h
  | some q =>
    rw [hf] at h
    have hq := List.mem_of_find?_eq_some hf
    have hqn : q.1 = n := by simpa using List.find?_some hf
    have : q.2 = b := by simpa using h
    rw [← hqn, ← this]
    exact hq

theorem lookup_of_mem_nodup (s : Stack) (hnd : s.keys.Nodup) (n : String) (b : Branch)
    (h : (n, b) ∈ s.branches) : s.lookup n = some b := by
  rcases s with ⟨l, tr, c, u⟩
  simp only [keys] at hnd
  induction l with
  | nil => cases h
  | cons q l ih =>
    rw [lookup_cons]
    rcases List.mem_cons.mp h with h | h
    · rw [← h]
      simp
    · have hql : q.1 ∉ l.map Prod.fst := (List.nodup_cons.mp hnd).1
      have hne : ¬ (q.1 = n) := by
        intro hEq
        apply hql
        rw [hEq]
        exact List.mem_map_of_mem Prod.fst h
      rw [if_neg hne]
      exact ih (List.nodup_cons.mp hnd).2 h

theorem topoFrom_append_singleton (x : String × Branch) :
    ∀ (l : List (String × Branch)) (seen : List String),
      TopoFrom seen (l ++ [x]) ↔
        (TopoFrom seen l ∧
          (∀ pn, x.2.parent = some pn → (pn ∈ l.map Prod.fst ∨ pn ∈ seen))) := by
  intro l
  induction l with
  | nil =>
    intro seen
    simp only [List.nil_append, TopoFrom, List.map_nil]
    constructor
    · rintro ⟨h1, _⟩
      exact ⟨trivial, fun pn hpn => Or.inr (h1 pn hpn)⟩
    · rintro ⟨_, h2⟩
      refine ⟨fun pn hpn => ?_, trivial⟩
      rcases h2 pn hpn with h | h
      · cases h
      · exact h
  | cons q l ih =>
    intro seen
    rw [List.cons_append]
    simp only [TopoFrom, List.map_cons]
    rw [ih (q.1 :: seen)]
    constructor
    · rintro ⟨hq, htail, hx⟩
      refine ⟨⟨hq, htail⟩, fun pn hpn => ?_⟩
      rcases hx pn hpn with h | h
      · exact Or.inl (List.mem_cons_of_mem _ h)
      · rcases List.mem_cons.mp h with h | h
        · exact Or.inl (h ▸ List.mem_cons_self _ _)
        · exact Or.inr h
    · rintro ⟨⟨hq, htail⟩, hx⟩
      refine ⟨hq, htail, fun pn hpn => ?_⟩
      rcases hx pn hpn with h | h
      · rcases List.mem_cons.mp h with h | h
        · exact Or.inr (h ▸ List.mem_cons_self _ _)
        · exact Or.inl h
      · exact Or.inr (List.mem_cons_of_mem _ h)

theorem topoFrom_map_keepParent (key : String) (f : Branch → Branch)
    (hf : ∀ b, (f b).parent = b.parent) :
    ∀ (l : List (String × Branch)) (seen : List String),
      TopoFrom seen (l.map (fun q => if q.1 = key then (q.1, f q.2) else q)) ↔
        TopoFrom seen l := by
  intro l
  induction l with
  | nil => intro seen; exact Iff.rfl
  | cons q l ih =>
    intro seen
    simp only [List.map_cons, TopoFrom]
    by_cases hq : q.1 = key
    · rw [if_pos hq]
      constructor
      · rintro ⟨h1, h2⟩
        refine ⟨fun pn hpn => h1 pn ?_, (ih (q.1 :: seen)).mp h2⟩
        show (f q.2).parent = some pn
        rw [hf]
        exact hpn
      · rintro ⟨h1, h2⟩
        refine ⟨fun pn hpn => h1 pn ?_, (ih (q.1 :: seen)).mpr h2⟩
        have h3 : (f q.2).parent = some pn := hpn
        rw [hf] at h3
        exact h3
    · rw [if_neg hq]
      constructor
      · rintro ⟨h1, h2⟩
        exact ⟨h1, (ih (q.1 :: seen)).mp h2⟩
      · rintro ⟨h1, h2⟩
        exact ⟨h1, (ih (q.1 :: seen)).mpr h2⟩

theorem topoFrom_filter (bad : String) :
    ∀ (l : List (String × Branch)) (seen seen2 : List String),
      TopoFrom seen l →
      (∀ q ∈ l, ∀ pn, q.2.parent = some pn → pn ≠ bad) →
      (∀ x ∈ seen, x ≠ bad → x ∈ seen2) →
      TopoFrom seen2 (l.filter (fun q => q.1 ≠ bad)) := by
  intro l
  induction l with
  | nil => intro seen seen2 _ _ _; trivial
  | cons q l ih =>
    intro seen seen2 htopo hnp hsub
    rw [List.filter_cons]
    rcases htopo with ⟨hq, htail⟩
    by_cases hqb : q.1 = bad
    · have h1 : (decide (q.1 ≠ bad)) = false := by simp [hqb]
      rw [h1]
      simp only [Bool.false_eq_true, if_false]
      refine ih (q.1 :: seen) seen2 htail
        (fun r hr => hnp r (List.mem_cons_of_mem _ hr)) ?_
      intro x hx hxb
      rcases List.mem_cons.mp hx with h | h
      · exact absurd (h.trans hqb) hxb
      · exact hsub x h hxb
    · have h1 : (decide (q.1 ≠ bad)) = true := by simp [hqb]
      rw [h1]
      simp only [if_true, TopoFrom]
      constructor
      · intro pn hpn
        exact hsub pn (hq pn hpn) (hnp q (List.mem_cons_self _ _) pn hpn)
      · refine ih (q.1 :: seen) (q.1 :: seen2) htail
          (fun r hr => hnp r (List.mem_cons_of_mem _ hr)) ?_
        intro x hx hxb
        rcases List.mem_cons.mp hx with h | h
        · exact h ▸ List.mem_cons_self _ _
        · exact List.mem_cons_of_mem _ (hsub x h hxb)

theorem topoFrom_parents_in_keys :
    ∀ (l : List (String × Branch)) (seen : List String),
      TopoFrom seen l →
      ∀ q ∈ l, ∀ pn, q.2.parent = some pn → pn ∈ seen ∨ pn ∈ l.map Prod.fst := by
  intro l
  induction l with
  | nil =>
    intro seen _ q hq
    cases hq
  | cons r l ih =>
    intro seen htopo q hq pn hpn
    rcases htopo with ⟨hr, htail⟩
    rcases List.mem_cons.mp hq with h | h
    · exact Or.inl (hr pn (h ▸ hpn))
    · rcases ih (r.1 :: seen) htail q h pn hpn with h2 | h2
      · rcases List.mem_cons.mp h2 with h3 | h3
        · exact Or.inr (by rw [List.map_cons]; exact h3 ▸ List.mem_cons_self _ _)
        · exact Or.inl h3
      · exact Or.inr (by rw [List.map_cons]; exact List.mem_cons_of_mem _ h2)

end Stack


namespace Stack

theorem topoFrom_get (l : List (String × Branch)) :
    ∀ (seen : List String), TopoFrom seen l →
    ∀ (i : Nat) (hi : i < l.length) (pn : String),
      (l.get ⟨i, hi⟩).2.parent = some pn →
      pn ∈ seen ∨ ∃ j, ∃ hj : j < l.length, j < i ∧ (l.get ⟨j, hj⟩).1 = pn := by
  induction l with
  | nil =>
    intro seen _ i hi
    exact absurd hi (by simp)
  | cons q l ih =>
    intro seen htopo i hi pn hpn
    rcases htopo with ⟨hq, htail⟩
    cases i with
    | zero => exact Or.inl (hq pn hpn)
    | succ i =>
      have hrec := ih (q.1 :: seen) htail i (by simpa using hi) pn hpn
      rcases hrec with h | ⟨j, hj, hji, hjn⟩
      · rcases List.mem_cons.mp h with h | h
        · exact Or.inr ⟨0, by simp, by omega, h.symm⟩
        · exact Or.inl h
      · exact Or.inr ⟨j + 1, by simpa using Nat.succ_lt_succ hj, by omega, hjn⟩

theorem terminates_of_topo (s : Stack) (hnd : s.keys.Nodup)
    (htopo : TopoFrom [] s.branches) :
    ∀ (i : Nat) (hi : i < s.branches.length),
      terminatesWithin s i (s.branches.get ⟨i, hi⟩).2 = true := by
  intro i
  induction i using Nat.strong_induction_on with
  | _ i IH =>
    intro hi
    cases hbp : (s.branches.get ⟨i, hi⟩).2.parent with
    | none =>
      cases i with
      | zero =>
        rw [terminatesWithin, hbp]
        rfl
      | succ n =>
        rw [terminatesWithin, hbp]
    | some pn =>
      rcases topoFrom_get s.branches [] htopo i hi pn hbp with h | ⟨j, hj, hji, hjn⟩
      · cases h
      · have hlk : s.lookup pn = some (s.branches.get ⟨j, hj⟩).2 := by
          rw [← hjn]
          exact lookup_of_mem_nodup s hnd _ _ (List.get_mem s.branches j hj)
        cases i with
        | zero => omega
        | succ n =>
          rw [terminatesWithin]
          simp only [hbp, hlk]
          exact terminatesWithin_mono s j n (by omega) _ (IH j (by omega) (by omega))

theorem acyclicBounded_of_topo (s : Stack) (hnd : s.keys.Nodup)
    (htopo : TopoFrom [] s.branches) : acyclicBounded s := by
  intro q hq
  rcases List.mem_iff_get.mp hq with ⟨⟨i, hi⟩, hgi⟩
  have hterm := terminates_of_topo s hnd htopo i hi
  rw [hgi] at hterm
  exact terminatesWithin_mono s i s.branches.length (by omega) q.2 hterm

theorem refIntegrity_of_topo (s : Stack) (htopo : TopoFrom [] s.branches) :
    refIntegrity s := by
  intro q hq pn hpn
  rcases topoFrom_parents_in_keys s.branches [] htopo q hq pn hpn with h | h
  · cases h
  · rcases (mem_keys_iff s pn).mp h with ⟨b, hb⟩
    rw [hasKey, hb]
    rfl

theorem refIntegrityL_of_topo (s : Stack) (htopo : TopoFrom [] s.branches) :
    refIntegrityL s := by
  intro n b hb pn hpn
  exact refIntegrity_of_topo s htopo (n, b) (mem_of_lookup s n b hb) pn hpn

theorem childrenConsistent_of_L (s : Stack) (hnd : s.keys.Nodup)
    (hL : childrenConsistentL s) : childrenConsistent s := by
  intro q hq m
  exact hL q.1 q.2 (lookup_of_mem_nodup s hnd q.1 q.2 hq) m

end Stack


namespace Stack

theorem WFInv_add (s s' : Stack) (br : Branch) (name : String) (parent : Option String)
    (t : Nat) (hNE : parent ≠ some "")
    (hwf : WFInv s) (h : s.add_branch name parent t = .ok (s', br)) : WFInv s' := by
  obtain ⟨hfresh, hbr, hcases⟩ := add_branch_ok_inversion s s' br name parent t h
  have hAn : s.lookup name = none := (hasKey_eq_false_iff s name).mp hfresh
  have hnk : name ∉ s.keys := by
    intro hmem
    rcases (mem_keys_iff s name).mp hmem with ⟨b, hb⟩
    rw [hAn] at hb
    cases hb
  have hrefl := refIntegrityL_of_topo s hwf.topo
  rcases hcases with ⟨p, hpeq, hpne, hpkey, hs'eq⟩ | ⟨hfalsy, hs'eq⟩
  · -- parent = some p (non-empty, present)
    rcases (hasKey_eq_true_iff s p).mp hpkey with ⟨pb, hpb⟩
    have hpn : p ≠ name := by
      intro hEq
      rw [hEq, hAn] at hpb
      cases hpb
    have hbrp : br.parent = some p := by rw [hbr, hpeq]
    have hname_not_child : name ∉ pb.children := by
      intro hmem
      rcases (hwf.childrenInvL p pb hpb name).mp hmem with ⟨c, hc, _⟩
      rw [hAn] at hc
      cases hc
    -- lookup formulas
    have hs1a : ∀ k, (Stack.mk (s.branches ++ [(name, br)]) s.trunk s.created_at t).lookup k =
        match s.lookup k with
        | some b => some b
        | none => if name = k then some br else none :=
      fun k => lookup_append_branch s.branches (name, br) s.trunk s.created_at t k
    have hsl : ∀ k, s'.lookup k =
        if k = p then
          ((Stack.mk (s.branches ++ [(name, br)]) s.trunk s.created_at t).lookup k).map
            (fun b => b.add_child name t)
        else (Stack.mk (s.branches ++ [(name, br)]) s.trunk s.created_at t).lookup k := by
      intro k
      rw [hs'eq]
      exact lookup_updateAt _ p _ k
    have hl_name : s'.lookup name = some br := by
      rw [hsl name, if_neg (fun hEq => hpn hEq.symm), hs1a name, hAn]
      simp
    have hl_p : s'.lookup p = some (pb.add_child name t) := by
      rw [hsl p, if_pos rfl, hs1a p, hpb]
      rfl
    have hl_other : ∀ k, k ≠ name → k ≠ p → s'.lookup k = s.lookup k := by
      intro k hkn hkp
      rw [hsl k, if_neg hkp, hs1a k]
      cases hv : s.lookup k with
      | some b => rfl
      | none => rw [if_neg (fun hEq => hkn hEq.symm)]
    -- a successful lookup in the new stack comes from the new entry or an old one
    have hpar : ∀ k c, s'.lookup k = some c →
        (k = name ∧ c = br) ∨ (∃ c0, s.lookup k = some c0 ∧ c.parent = c0.parent) := by
      intro k c hc
      by_cases hkn : k = name
      · subst hkn
        rw [hl_name] at hc
        exact Or.inl ⟨rfl, by injection hc with h2; exact h2.symm⟩
      · by_cases hkp : k = p
        · subst hkp
          rw [hl_p] at hc
          refine Or.inr ⟨pb, hpb, ?_⟩
          injection hc with h2
          rw [← h2]
          rfl
        · rw [hl_other k hkn hkp] at hc
          exact Or.inr ⟨c, hc, rfl⟩
    refine ⟨?_, ?_, ?_, ?_, ?_⟩
    · -- nodup keys
      rw [hs'eq, keys_updateAt, keys_append']
      simp only [List.nodup_append, List.nodup_cons]
      refine ⟨hwf.nodupKeys, by simp, ?_⟩
      intro a ha
      simp only [List.mem_singleton]
      intro hEq
      exact hnk (hEq ▸ ha)
    · -- parents never the empty string
      intro q hq
      rw [hs'eq] at hq
      simp only [updateAt, List.map_append, List.map_cons, List.map_nil] at hq
      rcases List.mem_append.mp hq with hq | hq
      · rcases List.mem_map.mp hq with ⟨r, hr, hrq⟩
        have : q.2.parent = r.2.parent := by
          rw [← hrq]
          by_cases hrp : r.1 = p
          · rw [if_pos hrp]
            rfl
          · rw [if_neg hrp]
        rw [this]
        exact hwf.parentsNE r hr
      · rcases List.mem_singleton.mp hq with rfl
        by_cases hnp2 : name = p
        · exact absurd hnp2.symm hpn
        · rw [if_neg hnp2]
          simp only []
          rw [hbrp]
          intro hcon
          exact hpne (by injection hcon)
    · -- topological order
      rw [hs'eq]
      simp only [updateAt]
      refine (topoFrom_map_keepParent p (fun b => b.add_child name t) (fun b => rfl)
        (s.branches ++ [(name, br)]) []).mpr ?_
      rw [topoFrom_append_singleton (name, br) s.branches []]
      refine ⟨hwf.topo, fun pn hpn2 => ?_⟩
      rw [hbrp] at hpn2
      injection hpn2 with hpn2
      exact Or.inl (hpn2 ▸ (mem_keys_iff s p).mpr ⟨pb, hpb⟩)
    · -- children sets remain duplicate-free
      intro q hq
      rw [hs'eq] at hq
      simp only [updateAt, List.map_append, List.map_cons, List.map_nil] at hq
      rcases List.mem_append.mp hq with hq | hq
      · rcases List.mem_map.mp hq with ⟨r, hr, hrq⟩
        by_cases hrp : r.1 = p
        · rw [← hrq, if_pos hrp]
          show ((r.2.add_child name t)).children.Nodup
          unfold Branch.add_child
          by_cases hmem : name ∈ r.2.children
          · rw [if_pos hmem]
            exact hwf.childrenNodup r hr
          · rw [if_neg hmem]
            simp only [List.nodup_append, List.nodup_cons]
            exact ⟨hwf.childrenNodup r hr, by simp, by
              intro a ha
              simp only [List.mem_singleton]
              intro hEq
              exact hmem (hEq ▸ ha)⟩
        · rw [← hrq, if_neg hrp]
          exact hwf.childrenNodup r hr
      · rcases List.mem_singleton.mp hq with rfl
        by_cases hnp2 : name = p
        · exact absurd hnp2.symm hpn
        · rw [if_neg hnp2]
          rw [hbr]
          simp
    · -- children sets match the inverse parent relation
      intro n b hnb m
      by_cases hn_name : n = name
      · subst hn_name
        rw [hl_name] at hnb
        injection hnb with hnb
        subst hnb
        rw [hbr]
        simp only [List.not_mem_nil, false_iff]
        rintro ⟨c, hc, hcp⟩
        rcases hpar m c hc with ⟨hmn, hcbr⟩ | ⟨c0, hc0, hcc0⟩
        · rw [hcbr, hbrp] at hcp
          exact hpn (by injection hcp)
        · rw [hcc0] at hcp
          have := hrefl m c0 hc0 n hcp
          rw [hfresh] at this
          cases this
      · by_cases hn_p : n = p
        · subst hn_p
          rw [hl_p] at hnb
          injection hnb with hnb
          subst hnb
          show m ∈ (pb.add_child name t).children ↔ _
          unfold Branch.add_child
          rw [if_neg hname_not_child]
          simp only [List.mem_append, List.mem_singleton]
          by_cases hm : m = name
          · subst hm
            constructor
            · intro _
              exact ⟨br, hl_name, hbrp⟩
            · intro _
              exact Or.inr rfl
          · simp only [hm, or_false]
            rw [hwf.childrenInvL n pb hpb m]
            constructor
            · rintro ⟨c0, hc0, hc0p⟩
              by_cases hmp : m = n
              · subst hmp
                rw [hpb] at hc0
                injection hc0 with hc0
                subst hc0
                exact ⟨pb.add_child name t, hl_p, hc0p⟩
              · exact ⟨c0, by rw [hl_other m hm hmp]; exact hc0, hc0p⟩
            · rintro ⟨c, hc, hcp⟩
              rcases hpar m c hc with ⟨hmn, _⟩ | ⟨c0, hc0, hcc0⟩
              · exact absurd hmn hm
              · exact ⟨c0, hc0, by rw [← hcc0]; exact hcp⟩
        · -- untouched entry
          have hnb0 : s.lookup n = some b := by
            rw [← hl_other n hn_name hn_p]
            exact hnb
          rw [hwf.childrenInvL n b hnb0 m]
          by_cases hm : m = name
          · subst hm
            constructor
            · rintro ⟨c0, hc0, _⟩
              rw [hAn] at hc0
              cases hc0
            · rintro ⟨c, hc, hcp⟩
              rw [hl_name] at hc
              injection hc with hc
              rw [← hc, hbrp] at hcp
              refine absurd ?_ hn_p
              injection hcp with h2
              exact h2.symm
          · constructor
            · rintro ⟨c0, hc0, hc0p⟩
              by_cases hmp : m = p
              · subst hmp
                rw [hpb] at hc0
                injection hc0 with hc0
                subst hc0
                exact ⟨pb.add_child name t, hl_p, hc0p⟩
              · exact ⟨c0, by rw [hl_other m hm hmp]; exact hc0, hc0p⟩
            · rintro ⟨c, hc, hcp⟩
              rcases hpar m c hc with ⟨hmn, _⟩ | ⟨c0, hc0, hcc0⟩
              · exact absurd hmn hm
              · exact ⟨c0, hc0, by rw [← hcc0]; exact hcp⟩
  · -- parent falsy: with the non-empty discipline, parent = none
    have hpnone : parent = none := by
      cases hparg : parent with
      | none => rfl
      | some p =>
        rw [hparg] at hfalsy
        by_cases hpe : p = ""
        · exact absurd (hpe ▸ hparg) hNE
        · rw [show parentTruthy (some p) = true by simp [parentTruthy, hpe]] at hfalsy
          cases hfalsy
    have hbrp : br.parent = none := by rw [hbr, hpnone]
    have hsl : ∀ k, s'.lookup k =
        match s.lookup k with
        | some b => some b
        | none => if name = k then some br else none := by
      intro k
      rw [hs'eq]
      exact lookup_append_branch s.branches (name, br) s.trunk s.created_at t k
    have hl_name : s'.lookup name = some br := by
      rw [hsl name, hAn]
      simp
    have hl_other : ∀ k, k ≠ name → s'.lookup k = s.lookup k := by
      intro k hkn
      rw [hsl k]
      cases hv : s.lookup k with
      | some b => rfl
      | none => rw [if_neg (fun hEq => hkn hEq.symm)]
    have hpar : ∀ k c, s'.lookup k = some c →
        (k = name ∧ c = br) ∨ (s.lookup k = some c) := by
      intro k c hc
      by_cases hkn : k = name
      · subst hkn
        rw [hl_name] at hc
        exact Or.inl ⟨rfl, by injection hc with h2; exact h2.symm⟩
      · rw [hl_other k hkn] at hc
        exact Or.inr hc
    refine ⟨?_, ?_, ?_, ?_, ?_⟩
    · rw [hs'eq, keys_append']
      simp only [List.nodup_append, List.nodup_cons]
      refine ⟨hwf.nodupKeys, by simp, ?_⟩
      intro a ha
      simp only [List.mem_singleton]
      intro hEq
      exact hnk (hEq ▸ ha)
    · intro q hq
      rw [hs'eq] at hq
      rcases List.mem_append.mp hq with hq | hq
      · exact hwf.parentsNE q hq
      · rcases List.mem_singleton.mp hq with rfl
        rw [hbrp]
        intro hcon
        cases hcon
    · rw [hs'eq]
      show TopoFrom [] (s.branches ++ [(name, br)])
      rw [topoFrom_append_singleton (name, br) s.branches []]
      refine ⟨hwf.topo, fun pn hpn2 => ?_⟩
      rw [hbrp] at hpn2
      cases hpn2
    · intro q hq
      rw [hs'eq] at hq
      rcases List.mem_append.mp hq with hq | hq
      · exact hwf.childrenNodup q hq
      · rcases List.mem_singleton.mp hq with rfl
        rw [hbr]
        simp
    · intro n b hnb m
      by_cases hn_name : n = name
      · subst hn_name
        rw [hl_name] at hnb
        injection hnb with hnb
        subst hnb
        rw [hbr]
        simp only [List.not_mem_nil, false_iff]
        rintro ⟨c, hc, hcp⟩
        rcases hpar m c hc with ⟨hmn, hcbr⟩ | hc0
        · rw [hcbr, hbrp] at hcp
          cases hcp
        · have := hrefl m c hc0 n hcp
          rw [hfresh] at this
          cases this
      · have hnb0 : s.lookup n = some b := by
          rw [← hl_other n hn_name]
          exact hnb
        rw [hwf.childrenInvL n b hnb0 m]
        by_cases hm : m = name
        · subst hm
          constructor
          · rintro ⟨c0, hc0, _⟩
            rw [hAn] at hc0
            cases hc0
          · rintro ⟨c, hc, hcp⟩
            rw [hl_name] at hc
            injection hc with hc
            rw [← hc, hbrp] at hcp
            cases hcp
        · constructor
          · rintro ⟨c0, hc0, hc0p⟩
            exact ⟨c0, by rw [hl_other m hm]; exact hc0, hc0p⟩
          · rintro ⟨c, hc, hcp⟩
            rcases hpar m c hc with ⟨hmn, _⟩ | hc0
            · exact absurd hmn hm
            · exact ⟨c, hc0, hcp⟩

end Stack


namespace Stack

theorem WFInv_remove (s s' : Stack) (name : String) (t : Nat)
    (hwf : WFInv s) (h : s.remove_branch name t = .ok s') : WFInv s' := by
  obtain ⟨b0, hlook, hnochild, hcases⟩ := remove_branch_ok_inversion s s' name t h
  have hnoparent : ∀ q ∈ s.branches, ∀ pn, q.2.parent = some pn → pn ≠ name := by
    intro q hq pn hpn hEq
    rw [hEq] at hpn
    have hql : s.lookup q.1 = some q.2 := lookup_of_mem_nodup s hwf.nodupKeys q.1 q.2 hq
    have hmem := (hwf.childrenInvL name b0 hlook q.1).mpr ⟨q.2, hql, hpn⟩
    rw [hnochild] at hmem
    cases hmem
  rcases hcases with ⟨hct, hck, hs'eq⟩ | ⟨hcond, hs'eq⟩
  · -- removed branch had a live parent p: its children set is pruned
    rcases (parentTruthy_iff b0.parent).mp hct with ⟨p, hbp, hpe⟩
    have hgd : b0.parent.getD "" = p := by rw [hbp]; rfl
    rw [hgd] at hck hs'eq
    rcases (hasKey_eq_true_iff s p).mp hck with ⟨pb, hpb⟩
    have hpn : p ≠ name :=
      hnoparent (name, b0) (mem_of_lookup s name b0 hlook) p hbp
    have hsl : ∀ k, s'.lookup k =
        if k = name then none
        else if k = p then (s.lookup k).map (fun x => x.remove_child name t)
        else s.lookup k := by
      intro k
      rw [hs'eq, lookup_filterNe, lookup_rebuild, lookup_updateAt]
    refine ⟨?_, ?_, ?_, ?_, ?_⟩
    · rw [hs'eq, keys_filterNe, keys_rebuild, keys_updateAt]
      exact hwf.nodupKeys.filter _
    · intro q hq
      rw [hs'eq] at hq
      simp only [updateAt] at hq
      rcases List.mem_filter.mp hq with ⟨hq, _⟩
      rcases List.mem_map.mp hq with ⟨r, hr, hrq⟩
      have : q.2.parent = r.2.parent := by
        rw [← hrq]
        by_cases hrp : r.1 = p
        · rw [if_pos hrp]
          rfl
        · rw [if_neg hrp]
      rw [this]
      exact hwf.parentsNE r hr
    · rw [hs'eq]
      simp only [updateAt]
      refine topoFrom_filter name _ [] [] ?_ ?_ (fun x hx _ => hx)
      · exact (topoFrom_map_keepParent p (fun x => x.remove_child name t)
          (fun x => rfl) s.branches []).mpr hwf.topo
      · intro q hq pn hpn
        rcases List.mem_map.mp hq with ⟨r, hr, hrq⟩
        have hqr : q.2.parent = r.2.parent := by
          rw [← hrq]
          by_cases hrp : r.1 = p
          · rw [if_pos hrp]
            rfl
          · rw [if_neg hrp]
        exact hnoparent r hr pn (by rw [← hqr]; exact hpn)
    · intro q hq
      rw [hs'eq] at hq
      simp only [updateAt] at hq
      rcases List.mem_filter.mp hq with ⟨hq, _⟩
      rcases List.mem_map.mp hq with ⟨r, hr, hrq⟩
      by_cases hrp : r.1 = p
      · rw [← hrq, if_pos hrp]
        show ((r.2.remove_child name t)).children.Nodup
        unfold Branch.remove_child
        exact (hwf.childrenNodup r hr).filter _
      · rw [← hrq, if_neg hrp]
        exact hwf.childrenNodup r hr
    · intro n b hnb m
      have hn_name : n ≠ name := by
        intro hEq
        rw [hsl n, if_pos hEq] at hnb
        cases hnb
      by_cases hn_p : n = p
      · have hb : b = pb.remove_child name t := by
          rw [hsl n, if_neg hn_name, if_pos hn_p, hn_p, hpb] at hnb
          injection hnb with hnb
          exact hnb.symm
        rw [hb]
        show m ∈ (pb.children.filter (fun c => c ≠ name)) ↔ _
        by_cases hm : m = name
        · subst hm
          simp only [List.mem_filter, decide_eq_true_eq]
          constructor
          · rintro ⟨_, hcon⟩
            exact absurd rfl hcon
          · rintro ⟨c, hc, _⟩
            rw [hsl m, if_pos rfl] at hc
            cases hc
        · simp only [List.mem_filter, decide_eq_true_eq]
          rw [hn_p]
          rw [hwf.childrenInvL p pb hpb m]
          constructor
          · rintro ⟨⟨c0, hc0, hc0p⟩, _⟩
            by_cases hmp : m = p
            · rw [hmp, hpb] at hc0
              injection hc0 with hc0
              refine ⟨pb.remove_child name t, ?_, ?_⟩
              · rw [hsl m, if_neg hm, if_pos hmp, hmp, hpb]
                rfl
              · show (pb.remove_child name t).parent = some p
                unfold Branch.remove_child
                rw [← hc0] at hc0p
                exact hc0p
            · refine ⟨c0, ?_, hc0p⟩
              rw [hsl m, if_neg hm, if_neg hmp]
              exact hc0
          · rintro ⟨c, hc, hcp⟩
            rw [hsl m, if_neg hm] at hc
            by_cases hmp : m = p
            · rw [if_pos hmp, hmp, hpb] at hc
              injection hc with hc
              refine ⟨⟨pb, by rw [hmp]; exact hpb, ?_⟩, hm⟩
              rw [← hc] at hcp
              exact hcp
            · rw [if_neg hmp] at hc
              exact ⟨⟨c, hc, hcp⟩, hm⟩
      · have hnb0 : s.lookup n = some b := by
          rw [hsl n, if_neg hn_name, if_neg hn_p] at hnb
          exact hnb
        rw [hwf.childrenInvL n b hnb0 m]
        by_cases hm : m = name
        · constructor
          · rintro ⟨c0, hc0, hc0p⟩
            rw [hm, hlook] at hc0
            injection hc0 with hc0
            rw [← hc0, hbp] at hc0p
            injection hc0p with hc0p
            exact absurd hc0p.symm hn_p
          · rintro ⟨c, hc, _⟩
            rw [hsl m, if_pos hm] at hc
            cases hc
        · constructor
          · rintro ⟨c0, hc0, hc0p⟩
            by_cases hmp : m = p
            · rw [hmp, hpb] at hc0
              injection hc0 with hc0
              refine ⟨pb.remove_child name t, ?_, ?_⟩
              · rw [hsl m, if_neg hm, if_pos hmp, hmp, hpb]
                rfl
              · show (pb.remove_child name t).parent = some n
                unfold Branch.remove_child
                rw [← hc0] at hc0p
                exact hc0p
            · refine ⟨c0, ?_, hc0p⟩
              rw [hsl m, if_neg hm, if_neg hmp]
              exact hc0
          · rintro ⟨c, hc, hcp⟩
            rw [hsl m, if_neg hm] at hc
            by_cases hmp : m = p
            · rw [if_pos hmp, hmp, hpb] at hc
              injection hc with hc
              refine ⟨pb, by rw [hmp]; exact hpb, ?_⟩
              rw [← hc] at hcp
              exact hcp
            · rw [if_neg hmp] at hc
              exact ⟨c, hc, hcp⟩
  · -- removed branch was a trunk: plain deletion
    have hbnone : b0.parent = none := by
      cases hbp : b0.parent with
      | none => rfl
      | some p =>
        by_cases hpe : p = ""
        · exact absurd (hpe ▸ hbp)
            (hwf.parentsNE (name, b0) (mem_of_lookup s name b0 hlook))
        · exfalso
          apply hcond
          refine ⟨by rw [hbp]; simp [parentTruthy, hpe], ?_⟩
          rw [hbp]
          exact refIntegrity_of_topo s hwf.topo (name, b0)
            (mem_of_lookup s name b0 hlook) p hbp
    have hsl : ∀ k, s'.lookup k =
        if k = name then none else s.lookup k := by
      intro k
      rw [hs'eq, lookup_filterNe, lookup_rebuild]
    refine ⟨?_, ?_, ?_, ?_, ?_⟩
    · rw [hs'eq, keys_filterNe]
      exact hwf.nodupKeys.filter _
    · intro q hq
      rw [hs'eq] at hq
      rcases List.mem_filter.mp hq with ⟨hq, _⟩
      exact hwf.parentsNE q hq
    · rw [hs'eq]
      exact topoFrom_filter name s.branches [] [] hwf.topo hnoparent (fun x hx _ => hx)
    · intro q hq
      rw [hs'eq] at hq
      rcases List.mem_filter.mp hq with ⟨hq, _⟩
      exact hwf.childrenNodup q hq
    · intro n b hnb m
      have hn_name : n ≠ name := by
        intro hEq
        rw [hsl n, if_pos hEq] at hnb
        cases hnb
      have hnb0 : s.lookup n = some b := by
        rw [hsl n, if_neg hn_name] at hnb
        exact hnb
      rw [hwf.childrenInvL n b hnb0 m]
      by_cases hm : m = name
      · constructor
        · rintro ⟨c0, hc0, hc0p⟩
          rw [hm, hlook] at hc0
          injection hc0 with hc0
          rw [← hc0, hbnone] at hc0p
          cases hc0p
        · rintro ⟨c, hc, _⟩
          rw [hsl m, if_pos hm] at hc
          cases hc
      · constructor
        · rintro ⟨c0, hc0, hc0p⟩
          refine ⟨c0, ?_, hc0p⟩
          rw [hsl m, if_neg hm]
          exact hc0
        · rintro ⟨c, hc, hcp⟩
          rw [hsl m, if_neg hm] at hc
          exact ⟨c, hc, hcp⟩

end Stack


/-! ### Claim C1: main theorems -/

namespace Stack

theorem WFInv_of_reachableNE (s : Stack) (h : ReachableNE s) : WFInv s := by
  induction h with
  | empty trunk c u =>
    refine ⟨by simp [keys], ?_, trivial, ?_, ?_⟩
    · intro q hq
      cases hq
    · intro q hq
      cases hq
    · intro n b hb m
      rw [lookup_nil] at hb
      cases hb
  | add s s2 br name parent t hr hne heq ih =>
    exact WFInv_add s s2 br name parent t hne ih heq
  | remove s s2 name t hr heq ih =>
    exact WFInv_remove s s2 name t ih heq

end Stack

/-- Counterexample to C1 as stated: from the empty stack, the successful
calls `add_branch("a")` then `add_branch("b", parent="")` produce a
reachable stack in which `b`'s parent is *set* (to the empty string) yet
names no existing branch — Python truthiness lets the empty-string parent
through the check while it is still stored. -/
theorem reachable_forest_invariants_counterexample :
    Stack.Reachable exEmptyParent ∧ ¬ Stack.forestInvariants exEmptyParent := by
  constructor
  · refine Stack.Reachable.add
      { branches := [("a", { name := "a", created_at := 1, updated_at := 1 })]
        trunk := "main", created_at := 0, updated_at := 1 }
      exEmptyParent
      { name := "b", parent := some "", created_at := 2, updated_at := 2 }
      "b" (some "") 2 ?_ rfl
    exact Stack.Reachable.add
      { branches := [], trunk := "main", created_at := 0, updated_at := 0 }
      _ { name := "a", created_at := 1, updated_at := 1 }
      "a" none 1 (Stack.Reachable.empty "main" 0 0) rfl
  · rintro ⟨_, href, _⟩
    have hb := href ("b", { name := "b", parent := some "", created_at := 2, updated_at := 2 })
      (by decide) "" rfl
    exact absurd hb (by decide)

/-- C1 (amended): for every Stack reachable from an empty Stack by
successful `add_branch`/`remove_branch` calls in which no `add_branch`
receives the empty string as its parent argument, the forest invariants
hold: every parent chain ends at a trunk within `|branches|` hops, every
set parent names an existing branch, and every children set equals the
exact set of branch names whose parent points at it. -/
theorem reachableNE_forest_invariants (s : Stack) (h : Stack.ReachableNE s) :
    Stack.forestInvariants s := by
  have hwf := Stack.WFInv_of_reachableNE s h
  exact ⟨Stack.acyclicBounded_of_topo s hwf.nodupKeys hwf.topo,
    Stack.refIntegrity_of_topo s hwf.topo,
    Stack.childrenConsistent_of_L s hwf.nodupKeys hwf.childrenInvL⟩

/-- Witness for C1 (amended): the doctest chain `main ← feature1 ←
feature2`, built by three `add_branch` calls, satisfies the forest
invariants. -/
theorem reachableNE_forest_invariants_witness :
    Stack.forestInvariants exChain :=
  reachableNE_forest_invariants exChain
    (Stack.ReachableNE.add
      { branches :=
          [("main", { name := "main", created_at := 1, updated_at := 2,
                      children := ["feature1"] }),
           ("feature1", { name := "feature1", parent := some "main",
                          created_at := 2, updated_at := 2 })]
        trunk := "main", created_at := 0, updated_at := 2 }
      exChain
      { name := "feature2", parent := some "feature1", created_at := 3, updated_at := 3 }
      "feature2" (some "feature1") 3
      (Stack.ReachableNE.add
        { branches := [("main", { name := "main", created_at := 1, updated_at := 1 })]
          trunk := "main", created_at := 0, updated_at := 1 }
        _ { name := "feature1", parent := some "main", created_at := 2, updated_at := 2 }
        "feature1" (some "main") 2
        (Stack.ReachableNE.add
          { branches := [], trunk := "main", created_at := 0, updated_at := 0 }
          _ { name := "main", created_at := 1, updated_at := 1 }
          "main" none 1 (Stack.ReachableNE.empty "main" 0 0) (by decide) rfl)
        (by decide) rfl)
      (by decide) rfl)


/-! ### Claim C5: machinery over Valid stacks -/

namespace Stack

theorem lookup_name_self (s : Stack) (hV : Valid s) (n : String) (b : Branch)
    (h : s.lookup n = some b) : b.name = n ∧ s.lookup b.name = some b := by
  have hm := mem_of_lookup s n b h
  have hn := hV.nameEq (n, b) hm
  exact ⟨hn, by rw [hn]; exact h⟩

theorem childAdj_iff_parentRel (s : Stack) (hV : Valid s) (a b : String) :
    childAdj s a b ↔ parentRel s b a := by
  constructor
  · rintro ⟨br, hbr, hmem⟩
    exact (hV.childrenInv (a, br) (mem_of_lookup s a br hbr) b).mp hmem
  · rintro ⟨c, hc, hcp⟩
    have hk : s.hasKey a = true := hV.refInt (b, c) (mem_of_lookup s b c hc) a hcp
    have hk2 : (s.lookup a).isSome = true := hk
    rcases Option.isSome_iff_exists.mp hk2 with ⟨br, hbr⟩
    refine ⟨br, hbr, ?_⟩
    exact (hV.childrenInv (a, br) (mem_of_lookup s a br hbr) b).mpr ⟨c, hc, hcp⟩

theorem transGen_childAdj_parentRel (s : Stack) (hV : Valid s) {a b : String}
    (h : Relation.TransGen (childAdj s) a b) :
    Relation.TransGen (parentRel s) b a := by
  have h2 : Relation.TransGen (Function.swap (parentRel s)) a b :=
    Relation.TransGen.mono (fun x y hxy => (childAdj_iff_parentRel s hV x y).mp hxy) h
  exact h2.swap

theorem childAdj_acyclic (s : Stack) (hV : Valid s) (n : String) :
    ¬ Relation.TransGen (childAdj s) n n := by
  intro h
  exact hV.acyclic n (transGen_childAdj_parentRel s hV h)

theorem childAdj_inj (s : Stack) (hV : Valid s) {x y z : String}
    (h1 : childAdj s y x) (h2 : childAdj s z x) : y = z := by
  rcases (childAdj_iff_parentRel s hV y x).mp h1 with ⟨c1, hc1, hp1⟩
  rcases (childAdj_iff_parentRel s hV z x).mp h2 with ⟨c2, hc2, hp2⟩
  rw [hc1] at hc2
  have hcc := Option.some.inj hc2
  rw [← hcc, hp1] at hp2
  exact Option.some.inj hp2

end Stack

theorem reach_join {α : Type} {R : α → α → Prop}
    (hdeg : ∀ x y z, R y x → R z x → y = z) :
    ∀ (x a b : α), Relation.ReflTransGen R a x → Relation.ReflTransGen R b x →
      Relation.ReflTransGen R a b ∨ Relation.ReflTransGen R b a := by
  intro x a b hax hbx
  revert hax
  induction hbx with
  | refl => intro hax; exact Or.inl hax
  | tail hby hyx ih =>
    intro hax
    rcases Relation.ReflTransGen.cases_tail hax with heq | ⟨z, haz, hzx⟩
    · subst heq
      exact Or.inr (hby.tail hyx)
    · have hzy := hdeg _ z _ hzx hyx
      rw [hzy] at haz
      exact ih haz

theorem transGen_of_reflTransGen_ne {α : Type} {R : α → α → Prop} {a b : α}
    (h : Relation.ReflTransGen R a b) (hne : a ≠ b) : Relation.TransGen R a b := by
  rcases Relation.ReflTransGen.cases_tail h with heq | ⟨c, hac, hcb⟩
  · exact absurd heq.symm hne
  · exact Relation.TransGen.tail' hac hcb


namespace Stack

theorem getAncestorsAux_none (s : Stack) : ∀ fuel,
    Branch.getAncestorsAux s fuel none = [] := by
  intro fuel
  cases fuel <;> rfl

theorem getAncestorsAux_succ (s : Stack) (fuel : Nat) (p : String) :
    Branch.getAncestorsAux s (fuel + 1) (some p) =
      if p = "" then []
      else
        match s.lookup p with
        | none => []
        | some pb => pb :: Branch.getAncestorsAux s fuel pb.parent := rfl

theorem getAncestorsAux_reach (s : Stack) (hV : Valid s) :
    ∀ fuel p d, d ∈ Branch.getAncestorsAux s fuel (some p) →
      s.lookup d.name = some d ∧ Relation.ReflTransGen (parentRel s) p d.name := by
  intro fuel
  induction fuel with
  | zero =>
    intro p d hd
    cases hd
  | succ fuel ih =>
    intro p d hd
    rw [getAncestorsAux_succ] at hd
    by_cases hp : p = ""
    · rw [if_pos hp] at hd
      cases hd
    · rw [if_neg hp] at hd
      cases hlk : s.lookup p with
      | none =>
        rw [hlk] at hd
        cases hd
      | some pb =>
        rw [hlk] at hd
        rcases List.mem_cons.mp hd with rfl | hd2
        · have h := lookup_name_self s hV p d hlk
          exact ⟨h.2, by rw [h.1]⟩
        · cases hq : pb.parent with
          | none =>
            rw [hq, getAncestorsAux_none] at hd2
            cases hd2
          | some q =>
            rw [hq] at hd2
            have hr := ih q d hd2
            exact ⟨hr.1, Relation.ReflTransGen.head ⟨pb, hlk, hq⟩ hr.2⟩

theorem getAncestorsAux_nodup (s : Stack) (hV : Valid s) :
    ∀ fuel par, ((Branch.getAncestorsAux s fuel par).map Branch.name).Nodup := by
  intro fuel
  induction fuel with
  | zero =>
    intro par
    cases par <;> exact List.nodup_nil
  | succ fuel ih =>
    intro par
    cases par with
    | none =>
      rw [getAncestorsAux_none]
      exact List.nodup_nil
    | some p =>
      rw [getAncestorsAux_succ]
      by_cases hp : p = ""
      · rw [if_pos hp]
        exact List.nodup_nil
      · rw [if_neg hp]
        cases hlk : s.lookup p with
        | none => exact List.nodup_nil
        | some pb =>
          rw [List.map_cons, List.nodup_cons]
          refine ⟨?_, ih pb.parent⟩
          intro hmem
          rcases List.mem_map.mp hmem with ⟨d, hd, hdn⟩
          have hpbn : pb.name = p := (lookup_name_self s hV p pb hlk).1
          cases hq : pb.parent with
          | none =>
            rw [hq, getAncestorsAux_none] at hd
            cases hd
          | some q =>
            rw [hq] at hd
            have hreach := (getAncestorsAux_reach s hV fuel q d hd).2
            rw [hdn, hpbn] at hreach
            exact hV.acyclic p (Relation.TransGen.head' ⟨pb, hlk, hq⟩ hreach)

end Stack


theorem nodup_flatMap_of {α β : Type} (l : List α) (f : α → List β)
    (h1 : ∀ x ∈ l, (f x).Nodup)
    (h2 : l.Pairwise (fun x y => ∀ b, b ∈ f x → b ∈ f y → False)) :
    (l.flatMap f).Nodup := by
  induction l with
  | nil => exact List.nodup_nil
  | cons a l ih =>
    rw [List.flatMap_cons]
    refine List.Nodup.append (h1 a (List.mem_cons_self a l)) (ih ?_ ?_) ?_
    · intro x hx
      exact h1 x (List.mem_cons_of_mem a hx)
    · exact (List.pairwise_cons.mp h2).2
    · intro b hb hb2
      rcases List.mem_flatMap.mp hb2 with ⟨y, hy, hby⟩
      exact (List.pairwise_cons.mp h2).1 y hy b hb hby

namespace Stack

theorem mem_get_children (s : Stack) (b c : Branch) :
    c ∈ b.get_children s ↔ ∃ n ∈ b.children, s.lookup n = some c := by
  unfold Branch.get_children
  rw [List.Perm.mem_iff (List.mergeSort_perm _ _)]
  simp [List.mem_filterMap]

theorem get_children_own (s : Stack) (hV : Valid s) (b c : Branch)
    (hc : c ∈ b.get_children s) : s.lookup c.name = some c ∧ c.name ∈ b.children := by
  rcases (mem_get_children s b c).mp hc with ⟨n, hn, hlk⟩
  have h := lookup_name_self s hV n c hlk
  exact ⟨h.2, by rw [h.1]; exact hn⟩

theorem filterMap_lookup_names (s : Stack) (hV : Valid s) :
    ∀ (l : List String),
      (l.filterMap (fun n => s.lookup n)).map Branch.name
        = l.filter (fun n => s.hasKey n) := by
  intro l
  induction l with
  | nil => rfl
  | cons n l ih =>
    cases hlk : s.lookup n with
    | none =>
      have hk : s.hasKey n = false := by unfold hasKey; rw [hlk]; rfl
      simp [List.filterMap_cons, hlk, List.filter_cons, hk, ih]
    | some c =>
      have hc := (lookup_name_self s hV n c hlk).1
      have hk : s.hasKey n = true := by unfold hasKey; rw [hlk]; rfl
      simp [List.filterMap_cons, hlk, List.filter_cons, hk, ih, hc]

theorem get_children_names_nodup (s : Stack) (hV : Valid s) (nm : String) (b : Branch)
    (hb : s.lookup nm = some b) : ((b.get_children s).map Branch.name).Nodup := by
  have hnd : b.children.Nodup := hV.childrenNodup (nm, b) (mem_of_lookup s nm b hb)
  have hperm : List.Perm ((b.get_children s).map Branch.name)
      ((b.children.filterMap (fun n => s.lookup n)).map Branch.name) :=
    List.Perm.map _ (List.mergeSort_perm _ _)
  rw [List.Perm.nodup_iff hperm, filterMap_lookup_names s hV]
  exact hnd.filter _

end Stack


namespace Stack

theorem children_reach_absurd (s : Stack) (hV : Valid s) (bn n1 n2 : String)
    (he1 : childAdj s bn n1) (he2 : childAdj s bn n2) (hne : n1 ≠ n2)
    (hr : Relation.ReflTransGen (childAdj s) n1 n2) : False := by
  have ht := transGen_of_reflTransGen_ne hr hne
  rcases Relation.TransGen.tail'_iff.mp ht with ⟨y, hy, hyx⟩
  have hyb : y = bn := childAdj_inj s hV hyx he2
  rw [hyb] at hy
  exact childAdj_acyclic s hV bn (Relation.TransGen.head' he1 hy)

theorem getDescendantsAux_spec (s : Stack) (hV : Valid s) :
    ∀ fuel (b : Branch), s.lookup b.name = some b →
      (∀ d ∈ Branch.getDescendantsAux s fuel b,
        s.lookup d.name = some d ∧ Relation.TransGen (childAdj s) b.name d.name) ∧
      ((Branch.getDescendantsAux s fuel b).map Branch.name).Nodup := by
  intro fuel
  induction fuel with
  | zero =>
    intro b hb
    exact ⟨fun d hd => absurd hd (List.not_mem_nil d), List.nodup_nil⟩
  | succ fuel ih =>
    intro b hb
    have hunf : Branch.getDescendantsAux s (fuel + 1) b
        = (b.get_children s).flatMap (fun c => c :: Branch.getDescendantsAux s fuel c) := rfl
    constructor
    · intro d hd
      rw [hunf] at hd
      rcases List.mem_flatMap.mp hd with ⟨c, hc, hdc⟩
      have hcown := get_children_own s hV b c hc
      have hedge : childAdj s b.name c.name := ⟨b, hb, hcown.2⟩
      rcases List.mem_cons.mp hdc with rfl | hdc2
      · exact ⟨hcown.1, Relation.TransGen.single hedge⟩
      · have hrec := (ih c hcown.1).1 d hdc2
        exact ⟨hrec.1, Relation.TransGen.head hedge hrec.2⟩
    · rw [hunf, List.map_flatMap]
      have hget : ∀ c : Branch, c ∈ b.get_children s →
          ∀ x, x ∈ List.map Branch.name (c :: Branch.getDescendantsAux s fuel c) →
          Relation.ReflTransGen (childAdj s) c.name x := by
        intro c hc x hx
        rcases List.mem_map.mp hx with ⟨d, hd, hdn⟩
        rcases List.mem_cons.mp hd with rfl | hd2
        · rw [← hdn]
        · have hcown := get_children_own s hV b c hc
          have hrec := (ih c hcown.1).1 d hd2
          rw [← hdn]
          exact hrec.2.to_reflTransGen
      refine nodup_flatMap_of _ _ ?_ ?_
      · intro c hc
        have hcown := get_children_own s hV b c hc
        rw [List.map_cons, List.nodup_cons]
        refine ⟨?_, (ih c hcown.1).2⟩
        intro hmem
        rcases List.mem_map.mp hmem with ⟨d, hd, hdn⟩
        have hrec := (ih c hcown.1).1 d hd
        rw [hdn] at hrec
        exact childAdj_acyclic s hV c.name hrec.2
      · have hnames := get_children_names_nodup s hV b.name b hb
        have hpw : (b.get_children s).Pairwise (fun c1 c2 => c1.name ≠ c2.name) :=
          List.pairwise_map.mp hnames
        refine List.Pairwise.imp_of_mem ?_ hpw
        intro c1 c2 hc1 hc2 hne nm h1 h2
        have hc1own := get_children_own s hV b c1 hc1
        have hc2own := get_children_own s hV b c2 hc2
        have he1 : childAdj s b.name c1.name := ⟨b, hb, hc1own.2⟩
        have he2 : childAdj s b.name c2.name := ⟨b, hb, hc2own.2⟩
        have hr1 := hget c1 hc1 nm h1
        have hr2 := hget c2 hc2 nm h2
        rcases @reach_join String (childAdj s) (fun x y z hy hz => childAdj_inj s hV hy hz)
          nm c1.name c2.name hr1 hr2 with h | h
        · exact children_reach_absurd s hV b.name c1.name c2.name he1 he2 hne h
        · exact children_reach_absurd s hV b.name c2.name c1.name he2 he1 (Ne.symm hne) h

end Stack


namespace Stack

theorem get_stack_list_nodup (s : Stack) (hV : Valid s) (nm : String) (branch : Branch)
    (hb : s.lookup nm = some branch) :
    ((branch.get_ancestors s).reverse ++ [branch] ++ branch.get_descendants s).Nodup := by
  have hown : s.lookup branch.name = some branch := (lookup_name_self s hV nm branch hb).2
  have hareach : ∀ d ∈ branch.get_ancestors s,
      Relation.TransGen (parentRel s) branch.name d.name := by
    intro d hd
    unfold Branch.get_ancestors at hd
    cases hq : branch.parent with
    | none =>
      rw [hq, getAncestorsAux_none] at hd
      cases hd
    | some q =>
      rw [hq] at hd
      have hr := (getAncestorsAux_reach s hV _ q d hd).2
      exact Relation.TransGen.head' ⟨branch, hown, hq⟩ hr
  have hAnodup : ((branch.get_ancestors s).map Branch.name).Nodup :=
    getAncestorsAux_nodup s hV _ _
  have hD := getDescendantsAux_spec s hV s.branches.length branch hown
  have hDreach : ∀ d ∈ branch.get_descendants s,
      Relation.TransGen (childAdj s) branch.name d.name := fun d hd => (hD.1 d hd).2
  have hnames :
      (((branch.get_ancestors s).map Branch.name).reverse
        ++ ([branch.name] ++ (branch.get_descendants s).map Branch.name)).Nodup := by
    refine List.Nodup.append (List.nodup_reverse.mpr hAnodup) ?_ ?_
    · rw [List.singleton_append, List.nodup_cons]
      refine ⟨?_, hD.2⟩
      intro hmem
      rcases List.mem_map.mp hmem with ⟨d, hd, hdn⟩
      have hr := hDreach d hd
      rw [hdn] at hr
      exact childAdj_acyclic s hV branch.name hr
    · intro x hx hx2
      rw [List.mem_reverse] at hx
      rcases List.mem_map.mp hx with ⟨a, ha, han⟩
      have hba := hareach a ha
      rw [List.singleton_append, List.mem_cons] at hx2
      rcases hx2 with rfl | hx2
      · rw [han] at hba
        exact hV.acyclic branch.name hba
      · rcases List.mem_map.mp hx2 with ⟨d, hd, hdn⟩
        have hdb := transGen_childAdj_parentRel s hV (hDreach d hd)
        rw [hdn, ← han] at hdb
        rw [han] at hba
        exact hV.acyclic branch.name (Relation.TransGen.trans hba (han ▸ hdb))
  have hmap : ((branch.get_ancestors s).reverse ++ [branch]
        ++ branch.get_descendants s).map Branch.name
      = ((branch.get_ancestors s).map Branch.name).reverse
        ++ ([branch.name] ++ (branch.get_descendants s).map Branch.name) := by
    simp [List.map_append, List.map_reverse]
  exact List.Nodup.of_map Branch.name (by rw [hmap]; exact hnames)

end Stack

theorem valid_exMain : Stack.Valid exMain := by
  have hno : ∀ x y, ¬ Stack.parentRel exMain x y := by
    rintro x y ⟨c, hc, hcp⟩
    have hm := Stack.mem_of_lookup exMain x c hc
    simp only [exMain, List.mem_singleton] at hm
    have hc2 : c = { name := "main", created_at := 1, updated_at := 1 } :=
      congrArg Prod.snd hm
    rw [hc2] at hcp
    cases hcp
  refine ⟨?_, ?_, ?_, ?_, ?_, ?_⟩
  · simp [Stack.keys, exMain]
  · intro p hp
    simp only [exMain, List.mem_singleton] at hp
    rw [hp]
  · intro p hp
    simp only [exMain, List.mem_singleton] at hp
    rw [hp]
    exact List.nodup_nil
  · intro p hp q hq
    simp only [exMain, List.mem_singleton] at hp
    rw [hp] at hq
    cases hq
  · intro p hp m
    simp only [exMain, List.mem_singleton] at hp
    rw [hp]
    constructor
    · intro hm
      exact absurd hm (List.not_mem_nil m)
    · rintro ⟨c, hc, hcp⟩
      have hm := Stack.mem_of_lookup exMain m c hc
      simp only [exMain, List.mem_singleton] at hm
      have hc2 : c = { name := "main", created_at := 1, updated_at := 1 } :=
        congrArg Prod.snd hm
      rw [hc2] at hcp
      cases hcp
  · intro n h
    cases h with
    | single h1 => exact hno _ _ h1
    | tail h1 h2 => exact hno _ _ h2

/-- **C5.** On a valid Stack (unique self-named keys, duplicate-free children
sets, referential integrity, children matching the inverse parent relation,
and acyclic parent links), `get_stack_for_branch` of an absent name fails with
the unknown-branch error, and of a present name returns exactly the reversed
ancestor list, then the branch itself, then its depth-first descendants, a
list without duplicate branches whose length is `1 + len(get_ancestors) +
len(get_descendants)`. -/
theorem get_stack_for_branch_characterization (s : Stack) (hV : Stack.Valid s)
    (name : String) :
    (s.lookup name = none →
      s.get_stack_for_branch name = .error (.unknownBranch name)) ∧
    (∀ branch, s.lookup name = some branch →
      s.get_stack_for_branch name =
        .ok ((branch.get_ancestors s).reverse ++ [branch] ++ branch.get_descendants s) ∧
      ((branch.get_ancestors s).reverse ++ [branch] ++ branch.get_descendants s).Nodup ∧
      ((branch.get_ancestors s).reverse ++ [branch]
          ++ branch.get_descendants s).length
        = 1 + (branch.get_ancestors s).length + (branch.get_descendants s).length) := by
  constructor
  · intro h
    simp [Stack.get_stack_for_branch, h]
  · intro branch hb
    refine ⟨?_, Stack.get_stack_list_nodup s hV name branch hb, ?_⟩
    · simp [Stack.get_stack_for_branch, hb]
    · simp only [List.length_append, List.length_reverse, List.length_singleton]
      omega

/-- Witness for C5: the one-branch stack `exMain` is valid, and the stack
list of `"main"` is the branch alone. -/
theorem get_stack_for_branch_characterization_witness :
    exMain.get_stack_for_branch "main" =
      .ok [{ name := "main", created_at := 1, updated_at := 1 }] ∧
    ([({ name := "main", created_at := 1, updated_at := 1 } : Branch)]).Nodup := by
  have h := (get_stack_for_branch_characterization exMain valid_exMain "main").2
    { name := "main", created_at := 1, updated_at := 1 } rfl
  have hA : Branch.get_ancestors { name := "main", created_at := 1, updated_at := 1 }
      exMain = [] := rfl
  have hD : Branch.get_descendants { name := "main", created_at := 1, updated_at := 1 }
      exMain = [] := by
    simp [Branch.get_descendants, Branch.getDescendantsAux, Branch.get_children, exMain]
  refine ⟨?_, List.nodup_singleton _⟩
  rw [h.1, hA, hD]
  rfl


/-! ### Claim C2: machinery for the cycle validator -/

namespace Stack

theorem cycleLoop_nil_eq (step : List String → String → Bool × List String)
    (visited : List String) : cycleLoop step [] visited = (false, visited) := rfl

theorem cycleLoop_cons_eq (step : List String → String → Bool × List String)
    (c : String) (cs visited : List String) :
    cycleLoop step (c :: cs) visited =
      match step visited c with
      | (true, v) => (true, v)
      | (false, v) => cycleLoop step cs v := rfl

theorem hasCycleAux_zero_eq (s : Stack) (visited recStack : List String) (n : String) :
    hasCycleAux s 0 visited recStack n =
      if n ∈ recStack then (true, visited)
      else if n ∈ visited then (false, visited)
      else (false, visited) := rfl

theorem hasCycleAux_succ_eq (s : Stack) (fuel : Nat) (visited recStack : List String)
    (n : String) :
    hasCycleAux s (fuel + 1) visited recStack n =
      if n ∈ recStack then (true, visited)
      else if n ∈ visited then (false, visited)
      else
        match s.lookup n with
        | some branch =>
          cycleLoop (fun vis c => hasCycleAux s fuel vis (n :: recStack) c)
            branch.children (n :: visited)
        | none => (false, n :: visited) := rfl

theorem validateAux_cons_eq (s : Stack) (visited : List String) (n : String)
    (ns : List String) :
    validateAux s visited (n :: ns) =
      if n ∈ visited then validateAux s visited ns
      else
        match hasCycleAux s (s.branches.length + 1) visited [] n with
        | (true, _) => .error (.cycleDetected n)
        | (false, v) => validateAux s v ns := rfl

theorem hasCycleAux_false_not_recStack (s : Stack) (fuel : Nat)
    (visited recStack : List String) (n : String) (v : List String)
    (h : hasCycleAux s fuel visited recStack n = (false, v)) : n ∉ recStack := by
  intro hmem
  cases fuel with
  | zero =>
    rw [hasCycleAux_zero_eq, if_pos hmem] at h
    exact Bool.noConfusion (congrArg Prod.fst h)
  | succ fuel =>
    rw [hasCycleAux_succ_eq, if_pos hmem] at h
    exact Bool.noConfusion (congrArg Prod.fst h)

theorem clean_of_children (s : Stack) (n : String)
    (h : ∀ c, childAdj s n c → ¬ cycleReachableFrom s c) :
    ¬ cycleReachableFrom s n := by
  rintro ⟨m, hpath, hcyc⟩
  rcases Relation.ReflTransGen.cases_head hpath with heq | ⟨c, hnc, hcm⟩
  · rcases Relation.TransGen.head'_iff.mp (heq ▸ hcyc) with ⟨c, hnc, hcn⟩
    exact h c hnc ⟨n, hcn, heq ▸ hcyc⟩
  · exact h c hnc ⟨m, hcm, hcyc⟩

theorem clean_of_absent (s : Stack) (n : String) (hlk : s.lookup n = none) :
    ¬ cycleReachableFrom s n := by
  refine clean_of_children s n ?_
  rintro c ⟨br, hbr, hmem⟩
  rw [hlk] at hbr
  cases hbr

theorem remainingCount_mono (s : Stack) (v1 v2 : List String)
    (h : ∀ x ∈ v1, x ∈ v2) :
    remainingCount s v2 ≤ remainingCount s v1 := by
  unfold remainingCount
  refine List.Sublist.length_le (List.monotone_filter_right _ ?_)
  intro k hk
  simp only [decide_eq_true_eq] at hk ⊢
  intro hkv
  exact hk (h k hkv)

theorem filter_notMem_cons_length_lt (l visited : List String) (n : String)
    (hk : n ∈ l) (hnv : n ∉ visited) :
    (l.filter (fun k => decide (k ∉ n :: visited))).length
      < (l.filter (fun k => decide (k ∉ visited))).length := by
  induction l with
  | nil => cases hk
  | cons a l ih =>
    by_cases ha : a = n
    · subst ha
      have h1 : (a :: l).filter (fun k => decide (k ∉ a :: visited))
          = l.filter (fun k => decide (k ∉ a :: visited)) := by
        simp [List.filter_cons]
      have h2 : (a :: l).filter (fun k => decide (k ∉ visited))
          = a :: l.filter (fun k => decide (k ∉ visited)) := by
        simp [List.filter_cons, hnv]
      rw [h1, h2]
      have hmono : (l.filter (fun k => decide (k ∉ a :: visited))).length
          ≤ (l.filter (fun k => decide (k ∉ visited))).length := by
        refine List.Sublist.length_le (List.monotone_filter_right _ ?_)
        intro k hk2
        simp only [decide_eq_true_eq] at hk2 ⊢
        intro hkv
        exact hk2 (List.mem_cons_of_mem a hkv)
      simp only [List.length_cons]
      omega
    · have hk2 : n ∈ l := by
        rcases List.mem_cons.mp hk with heq | hk2
        · exact absurd heq.symm ha
        · exact hk2
      by_cases hav : a ∈ visited
      · have h1 : (a :: l).filter (fun k => decide (k ∉ n :: visited))
            = l.filter (fun k => decide (k ∉ n :: visited)) := by
          simp [List.filter_cons, hav]
        have h2 : (a :: l).filter (fun k => decide (k ∉ visited))
            = l.filter (fun k => decide (k ∉ visited)) := by
          simp [List.filter_cons, hav]
        rw [h1, h2]
        exact ih hk2
      · have h1 : (a :: l).filter (fun k => decide (k ∉ n :: visited))
            = a :: l.filter (fun k => decide (k ∉ n :: visited)) := by
          simp [List.filter_cons, hav, ha]
        have h2 : (a :: l).filter (fun k => decide (k ∉ visited))
            = a :: l.filter (fun k => decide (k ∉ visited)) := by
          simp [List.filter_cons, hav]
        rw [h1, h2]
        simp only [List.length_cons]
        exact Nat.succ_lt_succ (ih hk2)

theorem remainingCount_lt (s : Stack) (visited : List String) (n : String)
    (hk : n ∈ s.keys) (hnv : n ∉ visited) :
    remainingCount s (n :: visited) < remainingCount s visited := by
  unfold remainingCount
  exact filter_notMem_cons_length_lt s.keys visited n hk hnv

end Stack


namespace Stack

theorem hasCycleAux_sound (s : Stack) :
    ∀ fuel visited recStack n v,
      (∀ x ∈ recStack, Relation.TransGen (childAdj s) x n) →
      hasCycleAux s fuel visited recStack n = (true, v) →
      cycleReachableFrom s n := by
  intro fuel
  induction fuel with
  | zero =>
    intro visited recStack n v hrs h
    by_cases h1 : n ∈ recStack
    · exact ⟨n, Relation.ReflTransGen.refl, hrs n h1⟩
    · rw [hasCycleAux_zero_eq, if_neg h1] at h
      by_cases h2 : n ∈ visited
      · rw [if_pos h2] at h
        exact Bool.noConfusion (congrArg Prod.fst h)
      · rw [if_neg h2] at h
        exact Bool.noConfusion (congrArg Prod.fst h)
  | succ fuel ih =>
    intro visited recStack n v hrs h
    by_cases h1 : n ∈ recStack
    · exact ⟨n, Relation.ReflTransGen.refl, hrs n h1⟩
    · rw [hasCycleAux_succ_eq, if_neg h1] at h
      by_cases h2 : n ∈ visited
      · rw [if_pos h2] at h
        exact Bool.noConfusion (congrArg Prod.fst h)
      · rw [if_neg h2] at h
        cases hlk : s.lookup n with
        | none =>
          simp only [hlk] at h
          exact Bool.noConfusion (congrArg Prod.fst h)
        | some br =>
          simp only [hlk] at h
          have hloop : ∀ cs vis v2,
              (∀ c ∈ cs, childAdj s n c) →
              cycleLoop (fun vis2 c => hasCycleAux s fuel vis2 (n :: recStack) c)
                cs vis = (true, v2) →
              ∃ c ∈ cs, cycleReachableFrom s c := by
            intro cs
            induction cs with
            | nil =>
              intro vis v2 _ hl
              rw [cycleLoop_nil_eq] at hl
              exact Bool.noConfusion (congrArg Prod.fst hl)
            | cons c cs ihc =>
              intro vis v2 hedges hl
              rw [cycleLoop_cons_eq] at hl
              cases hstep : hasCycleAux s fuel vis (n :: recStack) c with
              | mk bres vres =>
                rw [hstep] at hl
                cases bres with
                | false =>
                  rcases ihc vres v2
                      (fun c2 hc2 => hedges c2 (List.mem_cons_of_mem c hc2)) hl
                    with ⟨c2, hc2, hcyc⟩
                  exact ⟨c2, List.mem_cons_of_mem c hc2, hcyc⟩
                | true =>
                  have hHP : ∀ x ∈ n :: recStack,
                      Relation.TransGen (childAdj s) x c := by
                    intro x hx
                    rcases List.mem_cons.mp hx with rfl | hx2
                    · exact Relation.TransGen.single (hedges c (List.mem_cons_self c cs))
                    · exact (hrs x hx2).tail (hedges c (List.mem_cons_self c cs))
                  exact ⟨c, List.mem_cons_self c cs,
                    ih vis (n :: recStack) c vres hHP hstep⟩
          have hedges : ∀ c ∈ br.children, childAdj s n c := fun c hc => ⟨br, hlk, hc⟩
          rcases hloop br.children (n :: visited) v hedges h with ⟨c, hc, hcyc⟩
          rcases hcyc with ⟨m, hp, hcy⟩
          exact ⟨m, Relation.ReflTransGen.head ⟨br, hlk, hc⟩ hp, hcy⟩

end Stack


namespace Stack

theorem hasCycleAux_complete (s : Stack) :
    ∀ fuel visited recStack n v,
      remainingCount s visited < fuel →
      (∀ x ∈ visited, x ∉ recStack → ¬ cycleReachableFrom s x) →
      hasCycleAux s fuel visited recStack n = (false, v) →
      (∀ x ∈ visited, x ∈ v) ∧ n ∈ v ∧
      (∀ x ∈ v, x ∉ recStack → ¬ cycleReachableFrom s x) := by
  intro fuel
  induction fuel with
  | zero =>
    intro visited recStack n v hf
    exact absurd hf (Nat.not_lt_zero _)
  | succ fuel ih =>
    intro visited recStack n v hf hv h
    rw [hasCycleAux_succ_eq] at h
    by_cases h1 : n ∈ recStack
    · rw [if_pos h1] at h
      exact Bool.noConfusion (congrArg Prod.fst h)
    · rw [if_neg h1] at h
      by_cases h2 : n ∈ visited
      · rw [if_pos h2] at h
        have hveq : visited = v := congrArg Prod.snd h
        subst hveq
        exact ⟨fun x hx => hx, h2, hv⟩
      · rw [if_neg h2] at h
        cases hlk : s.lookup n with
        | none =>
          simp only [hlk] at h
          have hveq : n :: visited = v := congrArg Prod.snd h
          subst hveq
          refine ⟨fun x hx => List.mem_cons_of_mem n hx,
            List.mem_cons_self n visited, ?_⟩
          intro x hx hxrs
          rcases List.mem_cons.mp hx with rfl | hx2
          · exact clean_of_absent s x hlk
          · exact hv x hx2 hxrs
        | some br =>
          simp only [hlk] at h
          have hloop : ∀ cs vis v2,
              remainingCount s vis < fuel →
              (∀ x ∈ vis, x ∉ n :: recStack → ¬ cycleReachableFrom s x) →
              cycleLoop (fun vis2 c => hasCycleAux s fuel vis2 (n :: recStack) c)
                cs vis = (false, v2) →
              (∀ x ∈ vis, x ∈ v2) ∧
              (∀ c ∈ cs, c ∈ v2 ∧ c ∉ n :: recStack) ∧
              (∀ x ∈ v2, x ∉ n :: recStack → ¬ cycleReachableFrom s x) := by
            intro cs
            induction cs with
            | nil =>
              intro vis v2 _ hvc hl
              rw [cycleLoop_nil_eq] at hl
              have hveq : vis = v2 := congrArg Prod.snd hl
              subst hveq
              exact ⟨fun x hx => hx, fun c hc => absurd hc (List.not_mem_nil c), hvc⟩
            | cons c cs ihc =>
              intro vis v2 hfv hvc hl
              rw [cycleLoop_cons_eq] at hl
              cases hstep : hasCycleAux s fuel vis (n :: recStack) c with
              | mk bres vres =>
                rw [hstep] at hl
                cases bres with
                | true => exact Bool.noConfusion (congrArg Prod.fst hl)
                | false =>
                  have hc := ih vis (n :: recStack) c vres hfv hvc hstep
                  have hcnotrs : c ∉ n :: recStack :=
                    hasCycleAux_false_not_recStack s fuel vis (n :: recStack) c vres hstep
                  have hfv2 : remainingCount s vres < fuel :=
                    Nat.lt_of_le_of_lt (remainingCount_mono s vis vres hc.1) hfv
                  have hrec := ihc vres v2 hfv2 hc.2.2 hl
                  refine ⟨fun x hx => hrec.1 x (hc.1 x hx), ?_, hrec.2.2⟩
                  intro c2 hc2
                  rcases List.mem_cons.mp hc2 with rfl | hc2p
                  · exact ⟨hrec.1 c2 hc.2.1, hcnotrs⟩
                  · exact hrec.2.1 c2 hc2p
          have hnk : n ∈ s.keys := (mem_keys_iff s n).mpr ⟨br, hlk⟩
          have hf2 : remainingCount s (n :: visited) < fuel := by
            have hlt := remainingCount_lt s visited n hnk h2
            omega
          have hvc : ∀ x ∈ n :: visited, x ∉ n :: recStack →
              ¬ cycleReachableFrom s x := by
            intro x hx hxrs
            rcases List.mem_cons.mp hx with rfl | hx2
            · exact absurd (List.mem_cons_self x recStack) hxrs
            · exact hv x hx2 (fun hxr => hxrs (List.mem_cons_of_mem n hxr))
          have hres := hloop br.children (n :: visited) v hf2 hvc h
          refine ⟨fun x hx => hres.1 x (List.mem_cons_of_mem n hx),
            hres.1 n (List.mem_cons_self n visited), ?_⟩
          intro x hx hxrs
          by_cases hxn : x = n
          · subst hxn
            refine clean_of_children s x ?_
            rintro c ⟨br2, hbr2, hcmem⟩
            rw [hlk] at hbr2
            rw [← Option.some.inj hbr2] at hcmem
            have hcres := hres.2.1 c hcmem
            exact hres.2.2 c hcres.1 hcres.2
          · refine hres.2.2 x hx ?_
            intro hxin
            rcases List.mem_cons.mp hxin with heq | hxin2
            · exact hxn heq
            · exact hxrs hxin2

end Stack


namespace Stack

theorem remainingCount_lt_fuel (s : Stack) (visited : List String) :
    remainingCount s visited < s.branches.length + 1 := by
  unfold remainingCount
  have h1 := List.length_filter_le (fun k => decide (k ∉ visited)) s.keys
  have h2 : s.keys.length = s.branches.length := List.length_map _ _
  omega

theorem validateAux_ok_clean (s : Stack) :
    ∀ names visited,
      (∀ x ∈ visited, ¬ cycleReachableFrom s x) →
      validateAux s visited names = .ok () →
      ∀ n ∈ names, ¬ cycleReachableFrom s n := by
  intro names
  induction names with
  | nil =>
    intro visited _ _ n hn
    cases hn
  | cons m ns ihn =>
    intro visited hv h n hn
    rw [validateAux_cons_eq] at h
    by_cases hm : m ∈ visited
    · rw [if_pos hm] at h
      rcases List.mem_cons.mp hn with rfl | hn2
      · exact hv n hm
      · exact ihn visited hv h n hn2
    · rw [if_neg hm] at h
      cases hres : hasCycleAux s (s.branches.length + 1) visited [] m with
      | mk b v =>
        rw [hres] at h
        cases b with
        | true => exact Except.noConfusion h
        | false =>
          have hc := hasCycleAux_complete s (s.branches.length + 1) visited [] m v
            (remainingCount_lt_fuel s visited)
            (fun x hx _ => hv x hx) hres
          have hv2 : ∀ x ∈ v, ¬ cycleReachableFrom s x :=
            fun x hx => hc.2.2 x hx (List.not_mem_nil x)
          rcases List.mem_cons.mp hn with rfl | hn2
          · exact hv2 n hc.2.1
          · exact ihn v hv2 h n hn2

theorem validateAux_error_cycle (s : Stack) :
    ∀ names visited e,
      validateAux s visited names = .error e →
      ∃ r, e = .cycleDetected r ∧ cycleReachableFrom s r := by
  intro names
  induction names with
  | nil =>
    intro visited e h
    exact Except.noConfusion h
  | cons m ns ihn =>
    intro visited e h
    rw [validateAux_cons_eq] at h
    by_cases hm : m ∈ visited
    · rw [if_pos hm] at h
      exact ihn visited e h
    · rw [if_neg hm] at h
      cases hres : hasCycleAux s (s.branches.length + 1) visited [] m with
      | mk b v =>
        rw [hres] at h
        cases b with
        | false => exact ihn v e h
        | true =>
          have he : StackErr.cycleDetected m = e := Except.error.inj h
          have hcyc := hasCycleAux_sound s (s.branches.length + 1) visited [] m v
            (fun x hx => absurd hx (List.not_mem_nil x)) hres
          exact ⟨m, he.symm, hcyc⟩

theorem hasCycleIn_of_cycleReachable (s : Stack) (r : String)
    (h : cycleReachableFrom s r) : hasCycleIn s := by
  rcases h with ⟨m, _, hc⟩
  exact ⟨m, hc⟩

theorem no_cycle_of_all_keys_clean (s : Stack)
    (h : ∀ n ∈ s.keys, ¬ cycleReachableFrom s n) : ¬ hasCycleIn s := by
  rintro ⟨m, hm⟩
  rcases Relation.TransGen.head'_iff.mp hm with ⟨c, ⟨br, hbr, _⟩, _⟩
  have hmk : m ∈ s.keys := (mem_keys_iff s m).mpr ⟨br, hbr⟩
  exact h m hmk ⟨m, Relation.ReflTransGen.refl, hm⟩

end Stack

/-- **C2 (amended).** `validate_no_cycles` succeeds exactly when the stack's
`children` adjacency contains no cycle; when it fails, the failure is a
`CycleDetected` naming a branch from which some cycle of the adjacency is
reachable (not necessarily a branch lying on the cycle itself: the DFS
raises at the root of the traversal that found the cycle). -/
theorem validate_no_cycles_characterization (s : Stack) :
    (s.validate_no_cycles = .ok () ↔ ¬ Stack.hasCycleIn s) ∧
    (∀ e, s.validate_no_cycles = .error e →
      ∃ r, e = .cycleDetected r ∧ Stack.cycleReachableFrom s r) := by
  constructor
  · constructor
    · intro h
      exact Stack.no_cycle_of_all_keys_clean s
        (Stack.validateAux_ok_clean s s.keys []
          (fun x hx => absurd hx (List.not_mem_nil x)) h)
    · intro hnc
      cases hres : s.validate_no_cycles with
      | ok u =>
        cases u
        rfl
      | error e =>
        rcases Stack.validateAux_error_cycle s s.keys [] e hres with ⟨r, _, hcyc⟩
        exact absurd (Stack.hasCycleIn_of_cycleReachable s r hcyc) hnc
  · intro e h
    exact Stack.validateAux_error_cycle s s.keys [] e h

/-- Counterexample to C2 as stated: on the tampered stack `exCyc` (children
cycle `b → c → b`, keyed `a, b, c` with `a → b` an ordinary edge) the
validator raises `CycleDetected` naming `a` — the first dictionary key,
from which the cycle is merely reachable — although `a` lies on no cycle
of the children adjacency. -/
theorem validate_no_cycles_claim_counterexample :
    exCyc.validate_no_cycles = .error (.cycleDetected "a") ∧
    ¬ Relation.TransGen (Stack.childAdj exCyc) "a" "a" := by
  constructor
  · rfl
  · intro h
    rcases Relation.TransGen.tail'_iff.mp h with ⟨y, _, hedge⟩
    rcases hedge with ⟨br, hbr, hmem⟩
    have hm := Stack.mem_of_lookup exCyc y br hbr
    simp only [exCyc, List.mem_cons, List.not_mem_nil, or_false] at hm
    rcases hm with hm | hm | hm <;>
      · injection hm with h1 h2
        rw [h2] at hmem
        exact absurd hmem (by decide)

/-- Witness for C2 at the concrete stack `exCyc`: the raised failure names
`"a"`, and a cycle of the children adjacency is indeed reachable from
`"a"`. -/
theorem validate_no_cycles_characterization_witness :
    ∃ r, StackErr.cycleDetected "a" = .cycleDetected r ∧
      Stack.cycleReachableFrom exCyc r :=
  (validate_no_cycles_characterization exCyc).2 (.cycleDetected "a") rfl

end Graphite
